import Mathlib

/-!
Verification of the Job Shop solution-template engine
(SolutionTemplate.h, main.cpp, common.h).

The C++ code is shallowly embedded: the task catalog, the machine and job
index groupings, the chromosome load, the fixed-point conflict-resolution
repair loop, the bounds and fitness calculations, and the genetic operators
are all translated into executable Lean definitions.  Machine integers are
modelled as Int (no overflow is relevant at the value ranges the program
handles), the one floating-point computation (the fitness ratio of
integer-valued operands) is modelled as exact rational arithmetic with
Option none standing for the IEEE NaN produced by a zero denominator, and
the potentially non-terminating do-while repair loop takes explicit fuel
and returns Option.
-/

namespace NEC2

/-- One operation, mirroring the C++ tuple
typedef Task = (job ID, machine ID, sequence number, length, start time).
Only the start time is mutable in the C++ code. -/
structure Task where
  job : Nat
  machine : Nat
  seq : Nat
  len : Int
  start : Int
deriving DecidableEq, Repr

instance : Inhabited Task := ⟨⟨0, 0, 0, 0, 0⟩⟩

/-- Chromosome = vector of candidate start times, positionally aligned with
the task indices (common.h). -/
abbrev Chromosome := List Int

/-- The SolutionTemplate state: the task catalog plus the two index
groupings (machines and jobs hold indices into tasks).  The two cache
fields of the C++ class are not carried: the sentinel -1 scheme makes the
cached value equal to the corresponding calculate function of the current
template at every read, so horizon and absolute lowest bound are modelled
by their calculate functions directly. -/
structure SolutionTemplate where
  tasks : List Task
  machines : List (List Nat)
  jobs : List (List Nat)
deriving DecidableEq, Repr

/-- Unchecked vector indexing tasks[i] of the C++ code.  Index validity is
maintained by construction through add_job; out-of-range reads (undefined
behaviour in C++) fall back to the default task. -/
def taskAt (ts : List Task) (i : Nat) : Task := ts.getD i default

/-- Unchecked group indexing into the machines or jobs vectors. -/
def groupAt (gs : List (List Nat)) (i : Nat) : List Nat := gs.getD i []

/-- The comparator passed to std::sort in fill_start_times and in
resolve_conflicts orders indices by the start time of their tasks.
std::sort leaves the order of ties unspecified; the embedding fixes one
valid refinement, a stable sort with a non-strict comparison. -/
def startLEP (ts : List Task) (a b : Nat) : Prop :=
  (taskAt ts a).start ≤ (taskAt ts b).start

instance (ts : List Task) : DecidableRel (startLEP ts) :=
  fun a b => inferInstanceAs (Decidable ((taskAt ts a).start ≤ (taskAt ts b).start))

instance (ts : List Task) : IsTotal Nat (startLEP ts) :=
  ⟨fun a b => le_total (taskAt ts a).start (taskAt ts b).start⟩

instance (ts : List Task) : IsTrans Nat (startLEP ts) :=
  ⟨fun _ _ _ h1 h2 => le_trans h1 h2⟩

/-- Sorting one machine group by task start time (a stable sort, one valid
refinement of the unspecified tie order of std::sort). -/
def sortMachine (ts : List Task) (m : List Nat) : List Nat :=
  List.insertionSort (startLEP ts) m

/-- SolutionTemplate::fill_start_times.  Throwing std::runtime_error on a
length mismatch is modelled as none; otherwise each chromosome value is
copied into the start time of the task with the same index and every
machine group is re-sorted by start time. -/
def fill_start_times (st : SolutionTemplate) (c : Chromosome) : Option SolutionTemplate :=
  if c.length ≠ st.tasks.length then none
  else
    let ts := List.zipWith (fun t s => { t with start := s }) st.tasks c
    some { st with tasks := ts, machines := st.machines.map (sortMachine ts) }

/-- SolutionTemplate::get_chromosome: the start times in task-index order. -/
def get_chromosome (st : SolutionTemplate) : Chromosome :=
  st.tasks.map (·.start)

/-- SolutionTemplate::calculate_horizon: the sum of all task lengths. -/
def calculate_horizon (st : SolutionTemplate) : Int :=
  st.tasks.foldl (fun r t => r + t.len) 0

/-- Sum of the lengths of the tasks whose indices form one machine group. -/
def machineLoad (ts : List Task) (m : List Nat) : Int :=
  m.foldl (fun r i => r + (taskAt ts i).len) 0

/-- SolutionTemplate::calculate_absolute_lowest_bound: the largest
per-machine sum of lengths, starting from 0. -/
def calculate_absolute_lowest_bound (st : SolutionTemplate) : Int :=
  st.machines.foldl (fun mx m => max mx (machineLoad st.tasks m)) 0

/-- SolutionTemplate::total_runtime reads machine[machine.size() - 1] for
every machine group without an emptiness check; that read is modelled with
getLast?, so an empty machine group (undefined behaviour in C++) yields
none. -/
def total_runtime (st : SolutionTemplate) : Option Int :=
  st.machines.foldlM
    (fun mx m =>
      (m.getLast?).map (fun i =>
        let t := taskAt st.tasks i
        max mx (t.start + t.len)))
    0

/-- SolutionTemplate::fitness.  The arguments are the two cached bounds
read by the C++ code and the total runtime; all three are integers that
the C++ code converts to double (exactly, at these magnitudes), so the
computation is modelled in exact rational arithmetic.  In the final branch
the division is evaluated unconditionally; its denominator is zero exactly
when the cached horizon equals the cached lowest bound, in which case the
numerator is also zero and IEEE arithmetic yields NaN, modelled as none. -/
def fitness (cachedHorizon cachedLowest T : Int) : Option ℚ :=
  if T < cachedLowest then some 1
  else if cachedHorizon < T then some 0
  else if cachedHorizon = cachedLowest then none
  else some (1 - ((T : ℚ) - (cachedLowest : ℚ)) / ((cachedHorizon : ℚ) - (cachedLowest : ℚ)))

/-- The C++ conversion from double to int (the assignment of the double
fitness() result to the int Fitness field of a Specimen in common.h and
main.cpp) truncates toward zero: numerator divided by denominator with
truncating integer division. -/
def doubleToInt (q : ℚ) : Int :=
  q.num.tdiv (q.den : Int)

/-- common.h: typedef int Fitness; Specimen = (chromosome, fitness,
generation). -/
abbrev Fitness := Int

/-- The assignment std::get<1>(specimen) = solution_template.fitness() of
main.cpp, landing a double in the int-typed Fitness field. -/
def assignFitness (q : ℚ) : Fitness := doubleToInt q

/-- The in-place forward shift of resolve_conflicts: the loop
for j in the tail indices do tasks[steps[j]].start += diff.
A fold of single-index updates reproduces the C++ loop exactly (including
repeated indices, which do not occur in the groups built by add_job). -/
def shiftTasks (ts : List Task) (idxs : List Nat) (d : Int) : List Task :=
  idxs.foldl (fun acc j => acc.set j { taskAt acc j with start := (taskAt acc j).start + d }) ts

/-- The shared inner loop body of resolve_conflicts, used once per job
group and once per (sorted) machine group: walk adjacent index pairs, and
on a positive diff = start1 + length1 - start2 shift the right task and
every later task of the group forward by diff.  The C++ loop bound
size() - 1 underflows in unsigned arithmetic when the group is empty,
making the first iteration read out of range (undefined behaviour,
analysed with the C10 theorems); the embedding gives the loop its
in-range semantics, a no-op for groups of fewer than two indices.
Returns the updated tasks and whether a collision was found. -/
def passAux (ts : List Task) : List Nat → List Task × Bool
  | [] => (ts, false)
  | [_] => (ts, false)
  | a :: b :: rest =>
    let t1 := taskAt ts a
    let t2 := taskAt ts b
    let diff := t1.start + t1.len - t2.start
    if 0 < diff then
      let ts1 := shiftTasks ts (b :: rest) diff
      ((passAux ts1 (b :: rest)).1, true)
    else
      passAux ts (b :: rest)

/-- The first pass of one resolve_conflicts iteration: eliminate sequence
breaks job by job. -/
def jobPass (ts : List Task) : List (List Nat) → List Task × Bool
  | [] => (ts, false)
  | g :: gs =>
    let r1 := passAux ts g
    let r2 := jobPass r1.1 gs
    (r2.1, r1.2 || r2.2)

/-- The second pass of one resolve_conflicts iteration: for each machine,
first re-sort its group by current start time, then eliminate overlaps.
The sorted groups are stored back into the machines vector. -/
def machinePass (ts : List Task) : List (List Nat) → List (List Nat) × List Task × Bool
  | [] => ([], ts, false)
  | m :: ms =>
    let m1 := sortMachine ts m
    let r1 := passAux ts m1
    let r2 := machinePass r1.1 ms
    (m1 :: r2.1, r2.2.1, r1.2 || r2.2.2)

/-- One iteration of the do-while body of resolve_conflicts: the job pass
followed by the machine pass; the Bool is had_collision. -/
def resolveStep (st : SolutionTemplate) : SolutionTemplate × Bool :=
  let r1 := jobPass st.tasks st.jobs
  let r2 := machinePass r1.1 st.machines
  ({ st with tasks := r2.2.1, machines := r2.1 }, r1.2 || r2.2.2)

/-- SolutionTemplate::resolve_conflicts.  The do-while loop repeats the two
passes until an iteration reports no collision; the source itself notes
that convergence is not guaranteed, so the embedding takes fuel and
returns none when the loop has not terminated within it. -/
def resolve_conflicts : Nat → SolutionTemplate → Option SolutionTemplate
  | 0, _ => none
  | fuel + 1, st =>
    let r := resolveStep st
    if r.2 then resolve_conflicts fuel r.1 else some r.1

/-- The C++ vector resize used on the jobs vector by add_job: truncate or
pad with empty groups to exactly n entries. -/
def resizeGroups (gs : List (List Nat)) (n : Nat) : List (List Nat) :=
  gs.take n ++ List.replicate (n - gs.length) []

/-- The conditional grow of the machines vector in add_job: resize to n
entries only when the current size is smaller. -/
def growGroups (gs : List (List Nat)) (n : Nat) : List (List Nat) :=
  if gs.length < n then gs ++ List.replicate (n - gs.length) [] else gs

/-- Append one task index to the group at position i (push_back on
jobs[job_id] or machines[machine_id]). -/
def appendAt (gs : List (List Nat)) (i : Nat) (x : Nat) : List (List Nat) :=
  gs.set i (groupAt gs i ++ [x])

/-- The per-step body of add_job: append the new task to the catalog with
start time 0, register its index in its job group, grow the machines
vector when the machine ID is new, and register the index in its machine
group.  The second component carries the running sequence number; the new
task index is always the current catalog size. -/
def addStep (jobId : Nat) (acc : SolutionTemplate × Nat) (step : Nat × Int) :
    SolutionTemplate × Nat :=
  let st := acc.1
  let idx := st.tasks.length
  let tasks1 := st.tasks ++ [⟨jobId, step.1, acc.2, step.2, 0⟩]
  let jobs1 := appendAt st.jobs jobId idx
  let machines1 := appendAt (growGroups st.machines (step.1 + 1)) step.1 idx
  (⟨tasks1, machines1, jobs1⟩, acc.2 + 1)

/-- SolutionTemplate::add_job: resize the jobs vector to job_id + 1, then
register the steps one by one. -/
def add_job (st : SolutionTemplate) (jobId : Nat) (steps : List (Nat × Int)) :
    SolutionTemplate :=
  (steps.foldl (addStep jobId) ({ st with jobs := resizeGroups st.jobs (jobId + 1) }, 0)).1

/-- The empty template main.cpp starts from before reading the input. -/
def emptyTemplate : SolutionTemplate := ⟨[], [], []⟩

/-- A sequence of add_job calls, one per input line, as issued by main. -/
def buildTemplate (calls : List (Nat × List (Nat × Int))) : SolutionTemplate :=
  calls.foldl (fun st c => add_job st c.1 c.2) emptyTemplate

/-- The load-repair-extract pipeline every genetic operator runs on each
produced chromosome (fill_start_times, resolve_conflicts,
get_chromosome). -/
def repairChromosome (fuel : Nat) (st : SolutionTemplate) (c : Chromosome) :
    Option Chromosome := do
  let st0 ← fill_start_times st c
  let st1 ← resolve_conflicts fuel st0
  some (get_chromosome st1)

/-- crossover_1point of main.cpp with the randomly drawn cut point made
explicit: error (none) unless both parents have the same length of at
least 3; otherwise the prefixes of length point are exchanged and both
offspring go through the mandatory repair pipeline. -/
def crossover_1point (fuel point : Nat) (st : SolutionTemplate)
    (left right : Chromosome) : Option (Chromosome × Chromosome) :=
  if left.length ≠ right.length then none
  else if left.length < 3 then none
  else do
    let o1 := right.take point ++ left.drop point
    let o2 := left.take point ++ right.drop point
    let r1 ← repairChromosome fuel st o1
    let r2 ← repairChromosome fuel st o2
    some (r1, r2)

/-- crossover_2point of main.cpp with the two randomly drawn points made
explicit: the points are reordered when out of order and the second is
bumped when they coincide, then the segment [point1, point2) is exchanged
and both offspring go through the mandatory repair pipeline. -/
def crossover_2point (fuel point1 point2 : Nat) (st : SolutionTemplate)
    (left right : Chromosome) : Option (Chromosome × Chromosome) :=
  if left.length ≠ right.length then none
  else if left.length < 3 then none
  else
    let q1 := if point2 < point1 then point2 else point1
    let q2 := if point2 < point1 then point1 else if point1 = point2 then point2 + 1 else point2
    do
      let o1 := left.take q1 ++ ((right.drop q1).take (q2 - q1) ++ left.drop q2)
      let o2 := right.take q1 ++ ((left.drop q1).take (q2 - q1) ++ right.drop q2)
      let r1 ← repairChromosome fuel st o1
      let r2 ← repairChromosome fuel st o2
      some (r1, r2)

/-- mutate of main.cpp with the randomly drawn position and delta made
explicit: perturb one start time, reflect the delta when the result went
negative, then run the mandatory repair pipeline. -/
def mutate (fuel : Nat) (position : Nat) (delta : Int) (st : SolutionTemplate)
    (input : Chromosome) : Option Chromosome :=
  let v := input.getD position 0 + delta
  let v1 := if v < 0 then v - delta * 2 else v
  repairChromosome fuel st (input.set position v1)

/-! Specification predicates about schedules. -/

/-- Job sequencing between two tasks: the first ends no later than the
second starts. -/
def seqRel (t1 t2 : Task) : Prop := t1.start + t1.len ≤ t2.start

instance (t1 t2 : Task) : Decidable (seqRel t1 t2) :=
  inferInstanceAs (Decidable (t1.start + t1.len ≤ t2.start))

/-- The half-open intervals of two tasks do not overlap. -/
def nonOverlap (t1 t2 : Task) : Prop :=
  t1.start + t1.len ≤ t2.start ∨ t2.start + t2.len ≤ t1.start

instance (t1 t2 : Task) : Decidable (nonOverlap t1 t2) :=
  inferInstanceAs (Decidable (_ ∨ _))

/-- The tasks referenced by the indices of one group. -/
def groupTasks (ts : List Task) (g : List Nat) : List Task := g.map (taskAt ts)

/-- A group of indices is ordered by non-decreasing start time. -/
def sortedIdx (ts : List Task) (g : List Nat) : Prop :=
  g.Pairwise (fun a b => (taskAt ts a).start ≤ (taskAt ts b).start)

/-- Every adjacent pair of a group satisfies seqRel: no positive diff. -/
def adjacentOK (ts : List Task) (g : List Nat) : Prop :=
  (groupTasks ts g).Chain' seqRel

/-- Every job group respects the job order with no overlap between
consecutive steps. -/
def jobsSequenced (st : SolutionTemplate) : Prop :=
  ∀ g ∈ st.jobs, adjacentOK st.tasks g

/-- On every machine the scheduled intervals are pairwise
non-overlapping. -/
def machinesNonOverlapping (st : SolutionTemplate) : Prop :=
  ∀ m ∈ st.machines, (groupTasks st.tasks m).Pairwise nonOverlap

/-- The exit condition of the repair loop: all job groups adjacent-clean,
all machine groups time-sorted and adjacent-clean. -/
def resolved (st : SolutionTemplate) : Prop :=
  jobsSequenced st ∧ ∀ m ∈ st.machines, sortedIdx st.tasks m ∧ adjacentOK st.tasks m

/-- All task durations are non-negative (the data-model invariant of
every Job Shop instance fed through add_job). -/
def lensNonneg (ts : List Task) : Prop := ∀ t ∈ ts, 0 ≤ t.len

/-- All start times are non-negative. -/
def startsNonneg (ts : List Task) : Prop := ∀ t ∈ ts, 0 ≤ t.start

/-- The task catalog with the start times of a chromosome loaded in
(the pure part of fill_start_times). -/
def loadStarts (st : SolutionTemplate) (c : Chromosome) : List Task :=
  List.zipWith (fun t s => { t with start := s }) st.tasks c

/-- A chromosome is feasible for a template: once its start times are
loaded, every machine group is pairwise non-overlapping and every job
group is sequenced.  Both conditions depend only on group membership and
the start times, not on the stored order of the machine groups. -/
def chromFeasible (st : SolutionTemplate) (c : Chromosome) : Prop :=
  (∀ g ∈ st.jobs, (groupTasks (loadStarts st c) g).Chain' seqRel) ∧
  (∀ m ∈ st.machines, (groupTasks (loadStarts st c) m).Pairwise nonOverlap)

/-- Pointwise description of one state of tasks relative to another:
identical catalog fields everywhere and start times that moved only
forward. -/
def Shifted (ts ts' : List Task) : Prop :=
  ts'.length = ts.length ∧ ∀ i,
    (taskAt ts' i).job = (taskAt ts i).job ∧
    (taskAt ts' i).machine = (taskAt ts i).machine ∧
    (taskAt ts' i).seq = (taskAt ts i).seq ∧
    (taskAt ts' i).len = (taskAt ts i).len ∧
    (taskAt ts i).start ≤ (taskAt ts' i).start

/-- Total duration of a list of tasks, in the foldl shape used by the
C++ accumulation loops. -/
def sumLens (l : List Task) : Int := l.foldl (fun r t => r + t.len) 0

/-- All values of a chromosome are non-negative. -/
def chromNonneg (c : Chromosome) : Prop := ∀ x ∈ c, 0 ≤ x

instance (ts : List Task) : Decidable (lensNonneg ts) :=
  inferInstanceAs (Decidable (∀ t ∈ ts, 0 ≤ t.len))

instance (ts : List Task) : Decidable (startsNonneg ts) :=
  inferInstanceAs (Decidable (∀ t ∈ ts, 0 ≤ t.start))

instance (ch : Chromosome) : Decidable (chromNonneg ch) :=
  inferInstanceAs (Decidable (∀ x ∈ ch, 0 ≤ x))

/-! Definitions for the analysis of the add_job reachability claim. -/

/-- Machine IDs used across a sequence of add_job calls, in order. -/
def usedMachineIds (calls : List (Nat × List (Nat × Int))) : List Nat :=
  (calls.map (fun cl => cl.2.map Prod.fst)).flatten

/-- The machine-coverage precondition stated by claim C10: every machine
ID from 0 to the maximum used ID is assigned at least one operation. -/
def machinesCovered (calls : List (Nat × List (Nat × Int))) : Prop :=
  ∀ m ∈ List.range ((usedMachineIds calls).foldr max 0 + 1),
    usedMachineIds calls = [] ∨ m ∈ usedMachineIds calls

/-- The precondition of claim C10 that every added job has at least one
step. -/
def stepsNonempty (calls : List (Nat × List (Nat × Int))) : Prop :=
  ∀ cl ∈ calls, cl.2 ≠ []

/-- The index accesses named by claim C10 are in range exactly when no
group is empty: total_runtime reads machine[machine.size() - 1] of every
machine group, and the loop bound size() - 1 of resolve_conflicts
underflows in unsigned arithmetic on an empty job or machine group,
making the loop body read index 0 of an empty vector. -/
def accessesInRange (st : SolutionTemplate) : Prop :=
  (∀ g ∈ st.jobs, g ≠ []) ∧ (∀ m ∈ st.machines, m ≠ [])

instance (calls : List (Nat × List (Nat × Int))) : Decidable (machinesCovered calls) :=
  inferInstanceAs (Decidable (∀ m ∈ List.range _, _ ∨ _))

instance (calls : List (Nat × List (Nat × Int))) : Decidable (stepsNonempty calls) :=
  inferInstanceAs (Decidable (∀ cl ∈ calls, cl.2 ≠ []))

instance (st : SolutionTemplate) : Decidable (accessesInRange st) :=
  inferInstanceAs (Decidable (_ ∧ _))

/-! Concrete instances used as executable checks. -/

/-- The two-job two-machine instance of the end-to-end example in section
8 of the specification: job 0 = [(0,3),(1,2)], job 1 = [(1,4),(0,1)]. -/
def exampleTemplate : SolutionTemplate :=
  buildTemplate [(0, [(0, 3), (1, 2)]), (1, [(1, 4), (0, 1)])]

/-- exampleTemplate after loading the already-feasible chromosome
[0, 4, 0, 7]: start times copied in, machine groups re-sorted by start
time; this state is a fixed point of the repair loop. -/
def exampleLoaded : SolutionTemplate :=
  { tasks := [⟨0, 0, 0, 3, 0⟩, ⟨0, 1, 1, 2, 4⟩, ⟨1, 1, 0, 4, 0⟩, ⟨1, 0, 1, 1, 7⟩],
    machines := [[0, 3], [2, 1]],
    jobs := [[0, 1], [2, 3]] }

/-- A one-job one-step instance on a single machine: its horizon and its
absolute lowest bound coincide (both 1). -/
def tinyTemplate : SolutionTemplate := buildTemplate [(0, [(0, 1)])]

/-! Basic lemmas about indexed reads and updates. -/

theorem taskAt_set (ts : List Task) (j : Nat) (v : Task) (i : Nat) :
    taskAt (ts.set j v) i = if j = i ∧ j < ts.length then v else taskAt ts i := by
  unfold taskAt
  simp only [List.getD_eq_getElem?_getD, List.getElem?_set]
  by_cases h : j = i
  · subst h
    by_cases h2 : j < ts.length
    · simp [h2]
    · simp [h2, List.getElem?_eq_none (by omega : ts.length ≤ j)]
  · simp [h]

theorem shiftTasks_cons (ts : List Task) (j : Nat) (rest : List Nat) (d : Int) :
    shiftTasks ts (j :: rest) d =
      shiftTasks (ts.set j { taskAt ts j with start := (taskAt ts j).start + d }) rest d :=
  rfl

theorem length_shiftTasks (idxs : List Nat) (ts : List Task) (d : Int) :
    (shiftTasks ts idxs d).length = ts.length := by
  induction idxs generalizing ts with
  | nil => rfl
  | cons j rest ih =>
    rw [shiftTasks_cons, ih _, List.length_set]

theorem Shifted.refl (ts : List Task) : Shifted ts ts :=
  ⟨Eq.refl _, fun _ => ⟨Eq.refl _, Eq.refl _, Eq.refl _, Eq.refl _, le_refl _⟩⟩

theorem Shifted.trans {ts1 ts2 ts3 : List Task} (h1 : Shifted ts1 ts2)
    (h2 : Shifted ts2 ts3) : Shifted ts1 ts3 := by
  obtain ⟨hl1, h1⟩ := h1
  obtain ⟨hl2, h2⟩ := h2
  refine ⟨hl2.trans hl1, fun i => ?_⟩
  obtain ⟨a1, b1, c1, d1, e1⟩ := h1 i
  obtain ⟨a2, b2, c2, d2, e2⟩ := h2 i
  exact ⟨a2.trans a1, b2.trans b1, c2.trans c1, d2.trans d1, e1.trans e2⟩

theorem shifted_set_bump (ts : List Task) (j : Nat) (d : Int) (hd : 0 ≤ d) :
    Shifted ts (ts.set j { taskAt ts j with start := (taskAt ts j).start + d }) := by
  refine ⟨List.length_set .., fun i => ?_⟩
  rw [taskAt_set]
  by_cases h : j = i ∧ j < ts.length
  · obtain ⟨h1, h2⟩ := h
    subst h1
    rw [if_pos ⟨Eq.refl _, h2⟩]
    exact ⟨rfl, rfl, rfl, rfl, by show (taskAt ts j).start ≤ (taskAt ts j).start + d; omega⟩
  · rw [if_neg h]
    exact ⟨rfl, rfl, rfl, rfl, le_refl _⟩

theorem shifted_shiftTasks (idxs : List Nat) (ts : List Task) (d : Int) (hd : 0 ≤ d) :
    Shifted ts (shiftTasks ts idxs d) := by
  induction idxs generalizing ts with
  | nil => exact Shifted.refl ts
  | cons j rest ih =>
    have h1 := shifted_set_bump ts j d hd
    have h2 := ih (ts.set j { taskAt ts j with start := (taskAt ts j).start + d })
    exact h1.trans h2

theorem shifted_passAux (g : List Nat) (ts : List Task) :
    Shifted ts (passAux ts g).1 := by
  induction g generalizing ts with
  | nil => exact Shifted.refl ts
  | cons a tl ih =>
    match tl with
    | [] => exact Shifted.refl ts
    | b :: rest =>
      rw [passAux]
      by_cases h : 0 < (taskAt ts a).start + (taskAt ts a).len - (taskAt ts b).start
      · simp only [if_pos h]
        exact (shifted_shiftTasks _ _ _ (le_of_lt h)).trans (ih _)
      · simp only [if_neg h]
        exact ih ts

theorem shifted_jobPass (gs : List (List Nat)) (ts : List Task) :
    Shifted ts (jobPass ts gs).1 := by
  induction gs generalizing ts with
  | nil => exact Shifted.refl ts
  | cons g gs ih =>
    rw [jobPass]
    exact (shifted_passAux g ts).trans (ih _)

theorem shifted_machinePass (ms : List (List Nat)) (ts : List Task) :
    Shifted ts (machinePass ts ms).2.1 := by
  induction ms generalizing ts with
  | nil => exact Shifted.refl ts
  | cons m ms ih =>
    rw [machinePass]
    exact (shifted_passAux (sortMachine ts m) ts).trans (ih _)

theorem shifted_resolveStep (st : SolutionTemplate) :
    Shifted st.tasks (resolveStep st).1.tasks := by
  rw [resolveStep]
  exact (shifted_jobPass st.jobs st.tasks).trans (shifted_machinePass st.machines _)

theorem shifted_resolve {f : Nat} {st st' : SolutionTemplate}
    (h : resolve_conflicts f st = some st') : Shifted st.tasks st'.tasks := by
  induction f generalizing st with
  | zero => simp [resolve_conflicts] at h
  | succ f ih =>
    rw [resolve_conflicts] at h
    by_cases hb : (resolveStep st).2
    · rw [if_pos hb] at h
      exact (shifted_resolveStep st).trans (ih h)
    · rw [if_neg hb] at h
      cases h
      exact shifted_resolveStep st

/-! Lemmas about the sorting of machine groups. -/

theorem sortedIdx_sortMachine (ts : List Task) (m : List Nat) :
    sortedIdx ts (sortMachine ts m) :=
  List.sorted_insertionSort (startLEP ts) m

theorem sortMachine_of_sorted {ts : List Task} {m : List Nat}
    (h : sortedIdx ts m) : sortMachine ts m = m :=
  List.Sorted.insertionSort_eq h

theorem sortMachine_perm (ts : List Task) (m : List Nat) :
    (sortMachine ts m).Perm m :=
  List.perm_insertionSort (startLEP ts) m

/-! Exit-condition lemmas: what a collision-free pass means. -/

theorem passAux_eq_false {ts ts' : List Task} {g : List Nat}
    (h : passAux ts g = (ts', false)) : ts' = ts ∧ adjacentOK ts g := by
  induction g generalizing ts with
  | nil =>
    rw [passAux] at h
    injection h with h1 _
    exact ⟨h1.symm, by simp [adjacentOK, groupTasks]⟩
  | cons a tl ih =>
    match tl with
    | [] =>
      rw [passAux] at h
      injection h with h1 _
      exact ⟨h1.symm, by simp [adjacentOK, groupTasks]⟩
    | b :: rest =>
      rw [passAux] at h
      by_cases hd : 0 < (taskAt ts a).start + (taskAt ts a).len - (taskAt ts b).start
      · rw [if_pos hd] at h
        injection h with _ h2
        exact absurd h2.symm (by simp)
      · rw [if_neg hd] at h
        obtain ⟨h1, h2⟩ := ih h
        refine ⟨h1, ?_⟩
        have hab : seqRel (taskAt ts a) (taskAt ts b) := by
          unfold seqRel
          omega
        simpa [adjacentOK, groupTasks, List.chain'_cons] using
          ⟨hab, by simpa [adjacentOK, groupTasks] using h2⟩

theorem passAux_of_adjacentOK {ts : List Task} {g : List Nat}
    (h : adjacentOK ts g) : passAux ts g = (ts, false) := by
  induction g with
  | nil => rfl
  | cons a tl ih =>
    match tl with
    | [] => rfl
    | b :: rest =>
      rw [adjacentOK, groupTasks, List.map_cons, List.map_cons, List.chain'_cons] at h
      obtain ⟨hab, htail⟩ := h
      have hd : ¬ 0 < (taskAt ts a).start + (taskAt ts a).len - (taskAt ts b).start := by
        unfold seqRel at hab
        omega
      rw [passAux, if_neg hd]
      exact ih (by simpa [adjacentOK, groupTasks] using htail)

theorem jobPass_eq_false {gs : List (List Nat)} {ts ts' : List Task}
    (h : jobPass ts gs = (ts', false)) :
    ts' = ts ∧ ∀ g ∈ gs, adjacentOK ts g := by
  induction gs generalizing ts with
  | nil =>
    rw [jobPass] at h
    injection h with h1 _
    exact ⟨h1.symm, by simp⟩
  | cons g gs ih =>
    rw [jobPass] at h
    injection h with h1 h2
    rw [Bool.or_eq_false_iff] at h2
    obtain ⟨hb1, hb2⟩ := h2
    have e1 : passAux ts g = ((passAux ts g).1, false) := by
      rw [← hb1]
    obtain ⟨e1a, e1b⟩ := passAux_eq_false e1
    rw [e1a] at h1 hb2
    have e2 : jobPass ts gs = (ts', false) := by
      rw [← h1, ← hb2]
    obtain ⟨e2a, e2b⟩ := ih e2
    refine ⟨e2a, fun g2 hg2 => ?_⟩
    rcases List.mem_cons.mp hg2 with rfl | hg2
    · exact e1b
    · exact e2b g2 hg2

theorem jobPass_of_OK {gs : List (List Nat)} {ts : List Task}
    (h : ∀ g ∈ gs, adjacentOK ts g) : jobPass ts gs = (ts, false) := by
  induction gs with
  | nil => rfl
  | cons g gs ih =>
    rw [jobPass, passAux_of_adjacentOK (h g (List.mem_cons_self g gs))]
    rw [ih (fun g2 hg2 => h g2 (List.mem_cons_of_mem _ hg2))]
    rfl

theorem machinePass_eq_false {ms : List (List Nat)} {ts ts' : List Task}
    {ms' : List (List Nat)}
    (h : machinePass ts ms = (ms', ts', false)) :
    ts' = ts ∧ ms' = ms.map (sortMachine ts) ∧
      ∀ m ∈ ms', sortedIdx ts m ∧ adjacentOK ts m := by
  induction ms generalizing ts ms' with
  | nil =>
    rw [machinePass] at h
    injection h with h1 h2
    injection h2 with h2 _
    exact ⟨h2.symm, h1.symm, by simp [h1.symm]⟩
  | cons m ms ih =>
    rw [machinePass] at h
    injection h with h1 h2
    injection h2 with h2 h3
    rw [Bool.or_eq_false_iff] at h3
    obtain ⟨hb1, hb2⟩ := h3
    have e1 : passAux ts (sortMachine ts m) =
        ((passAux ts (sortMachine ts m)).1, false) := by
      rw [← hb1]
    obtain ⟨e1a, e1b⟩ := passAux_eq_false e1
    rw [e1a] at h1 h2 hb2
    have e2 : machinePass ts ms = ((machinePass ts ms).1, ts', false) := by
      rw [← hb2, ← h2]
    obtain ⟨e2a, e2b, e2c⟩ := ih e2
    refine ⟨e2a, ?_, fun m2 hm2 => ?_⟩
    · rw [← h1, List.map_cons, e2b]
    · rw [← h1] at hm2
      rcases List.mem_cons.mp hm2 with rfl | hm2
      · exact ⟨sortedIdx_sortMachine ts m, e1b⟩
      · exact e2c m2 hm2

theorem machinePass_of_sorted {ms : List (List Nat)} {ts : List Task}
    (h : ∀ m ∈ ms, sortedIdx ts m ∧ adjacentOK ts m) :
    machinePass ts ms = (ms, ts, false) := by
  induction ms with
  | nil => rfl
  | cons m ms ih =>
    have hm := h m (List.mem_cons_self m ms)
    rw [machinePass, sortMachine_of_sorted hm.1, passAux_of_adjacentOK hm.2]
    rw [ih (fun m2 hm2 => h m2 (List.mem_cons_of_mem _ hm2))]
    rfl

theorem resolveStep_jobs (st : SolutionTemplate) :
    (resolveStep st).1.jobs = st.jobs := rfl

theorem resolveStep_eq_false {st st' : SolutionTemplate}
    (h : resolveStep st = (st', false)) :
    st'.tasks = st.tasks ∧ st'.jobs = st.jobs ∧
      st'.machines = st.machines.map (sortMachine st.tasks) ∧ resolved st' := by
  have h1 := congrArg Prod.fst h
  have h2 := congrArg Prod.snd h
  rw [resolveStep] at h1
  rw [resolveStep] at h2
  simp only at h1 h2
  rw [Bool.or_eq_false_iff] at h2
  obtain ⟨hb1, hb2⟩ := h2
  have e1 : jobPass st.tasks st.jobs = ((jobPass st.tasks st.jobs).1, false) := by
    rw [← hb1]
  obtain ⟨e1a, e1b⟩ := jobPass_eq_false e1
  rw [e1a] at h1 hb2
  have e2 : machinePass st.tasks st.machines =
      ((machinePass st.tasks st.machines).1,
        (machinePass st.tasks st.machines).2.1, false) := by
    rw [← hb2]
  obtain ⟨e2a, e2b, e2c⟩ := machinePass_eq_false e2
  rw [e2a, e2b] at h1
  rw [e2b] at e2c
  subst h1
  exact ⟨rfl, rfl, rfl, e1b, e2c⟩

theorem resolveStep_of_resolved {st : SolutionTemplate} (h : resolved st) :
    resolveStep st = (st, false) := by
  obtain ⟨hj, hm⟩ := h
  have e1 : jobPass st.tasks st.jobs = (st.tasks, false) := jobPass_of_OK hj
  have e2 : machinePass st.tasks st.machines = (st.machines, st.tasks, false) :=
    machinePass_of_sorted hm
  rw [resolveStep, e1]
  simp only [e2]
  rfl

theorem resolve_some_resolved {f : Nat} {st st' : SolutionTemplate}
    (h : resolve_conflicts f st = some st') : resolved st' ∧ st'.jobs = st.jobs := by
  induction f generalizing st with
  | zero => simp [resolve_conflicts] at h
  | succ f ih =>
    rw [resolve_conflicts] at h
    by_cases hb : (resolveStep st).2
    · rw [if_pos hb] at h
      obtain ⟨h1, h2⟩ := ih h
      exact ⟨h1, h2.trans (resolveStep_jobs st)⟩
    · rw [if_neg hb] at h
      rw [Option.some_inj] at h
      subst h
      have e : resolveStep st = ((resolveStep st).1, false) := by
        rw [Bool.not_eq_true] at hb
        rw [← hb]
      obtain ⟨-, hj, -, hres⟩ := resolveStep_eq_false e
      exact ⟨hres, hj⟩

theorem resolve_of_resolved {st : SolutionTemplate} (h : resolved st)
    {f : Nat} (hf : 0 < f) : resolve_conflicts f st = some st := by
  match f, hf with
  | f + 1, _ =>
    rw [resolve_conflicts, resolveStep_of_resolved h]
    simp

/-! From the exit condition to the feasibility of the schedule. -/

theorem chain'_pairwise_seqRel {l : List Task} (hl : ∀ t ∈ l, 0 ≤ t.len)
    (h : l.Chain' seqRel) : l.Pairwise seqRel := by
  induction l with
  | nil => exact List.Pairwise.nil
  | cons a l ih =>
    rw [List.chain'_cons'] at h
    obtain ⟨h1, h2⟩ := h
    have hp := ih (fun t ht => hl t (List.mem_cons_of_mem _ ht)) h2
    refine List.Pairwise.cons (fun b hb => ?_) hp
    cases l with
    | nil => cases hb
    | cons c l2 =>
      have hac : seqRel a c := h1 c rfl
      rcases List.mem_cons.mp hb with rfl | hb2
      · exact hac
      · have hcb : seqRel c b := (List.pairwise_cons.mp hp).1 b hb2
        have hc : 0 ≤ c.len := hl c (List.mem_cons_of_mem a (List.mem_cons_self c l2))
        unfold seqRel at *
        omega

theorem lensNonneg_taskAt {ts : List Task} (h : lensNonneg ts) (i : Nat) :
    0 ≤ (taskAt ts i).len := by
  unfold taskAt
  rcases htl : ts[i]? with _ | t
  · simp [List.getD_eq_getElem?_getD, htl]
    rfl
  · rw [List.getD_eq_getElem?_getD, htl]
    exact h t (List.getElem?_mem htl)

theorem resolved_feasible {st : SolutionTemplate} (hres : resolved st)
    (hlen : ∀ i, 0 ≤ (taskAt st.tasks i).len) :
    machinesNonOverlapping st ∧ jobsSequenced st := by
  refine ⟨fun m hm => ?_, hres.1⟩
  have h2 := (hres.2 m hm).2
  have hmem : ∀ t ∈ groupTasks st.tasks m, 0 ≤ t.len := by
    intro t ht
    obtain ⟨i, _, rfl⟩ := List.mem_map.mp ht
    exact hlen i
  exact (chain'_pairwise_seqRel hmem h2).imp (fun h => Or.inl h)

/-! Lemmas about fill_start_times and loadStarts. -/

theorem Task.ext1 {t1 t2 : Task} (h1 : t1.job = t2.job) (h2 : t1.machine = t2.machine)
    (h3 : t1.seq = t2.seq) (h4 : t1.len = t2.len) (h5 : t1.start = t2.start) :
    t1 = t2 := by
  cases t1
  cases t2
  simp_all

theorem taskAt_lt {ts : List Task} {i : Nat} (h : i < ts.length) :
    taskAt ts i = ts[i] := by
  unfold taskAt
  rw [List.getD_eq_getElem?_getD, List.getElem?_eq_getElem h]
  rfl

theorem taskAt_ge {ts : List Task} {i : Nat} (h : ts.length ≤ i) :
    taskAt ts i = default := by
  unfold taskAt
  rw [List.getD_eq_getElem?_getD, List.getElem?_eq_none h]
  rfl

theorem length_loadStarts {st : SolutionTemplate} {c : Chromosome}
    (hlen : c.length = st.tasks.length) :
    (loadStarts st c).length = st.tasks.length := by
  unfold loadStarts
  rw [List.length_zipWith, hlen, Nat.min_self]

theorem taskAt_loadStarts {st : SolutionTemplate} {c : Chromosome}
    (hlen : c.length = st.tasks.length) (i : Nat) :
    taskAt (loadStarts st c) i = { taskAt st.tasks i with start := c.getD i 0 } := by
  by_cases hi : i < st.tasks.length
  · have h1 : st.tasks[i]? = some st.tasks[i] := List.getElem?_eq_getElem hi
    have hi2 : i < c.length := by omega
    have h2 := List.getElem?_eq_getElem (l := c) hi2
    unfold loadStarts taskAt
    simp only [List.getD_eq_getElem?_getD, List.getElem?_zipWith, h1, h2, Option.getD_some]
  · have hge : st.tasks.length ≤ i := by omega
    rw [taskAt_ge (by rw [length_loadStarts hlen]; exact hge), taskAt_ge hge]
    have : c.getD i 0 = 0 := by
      rw [List.getD_eq_getElem?_getD, List.getElem?_eq_none (by omega)]
      rfl
    rw [this]
    rfl

theorem fill_eq_none_iff (st : SolutionTemplate) (c : Chromosome) :
    fill_start_times st c = none ↔ c.length ≠ st.tasks.length := by
  unfold fill_start_times
  by_cases h : c.length ≠ st.tasks.length
  · simp [h]
  · simp [h]

theorem fill_some_parts {st st0 : SolutionTemplate} {c : Chromosome}
    (h : fill_start_times st c = some st0) :
    c.length = st.tasks.length ∧ st0.tasks = loadStarts st c ∧
      st0.jobs = st.jobs ∧
      st0.machines = st.machines.map (sortMachine (loadStarts st c)) := by
  unfold fill_start_times at h
  by_cases hc : c.length ≠ st.tasks.length
  · rw [if_pos hc] at h
    cases h
  · rw [if_neg hc] at h
    rw [Option.some_inj] at h
    push_neg at hc
    subst h
    exact ⟨hc, rfl, rfl, rfl⟩

/-! Index-aligned permutation of the machine groups through the passes. -/

theorem groupAt_cons_zero (g : List Nat) (gs : List (List Nat)) :
    groupAt (g :: gs) 0 = g := rfl

theorem groupAt_cons_succ (g : List Nat) (gs : List (List Nat)) (k : Nat) :
    groupAt (g :: gs) (k + 1) = groupAt gs k := rfl

theorem machinePass_machines_len (ts : List Task) (ms : List (List Nat)) :
    ((machinePass ts ms).1).length = ms.length := by
  induction ms generalizing ts with
  | nil => rfl
  | cons m ms ih =>
    rw [machinePass]
    simpa using ih _

theorem machinePass_machines_perm (ts : List Task) (ms : List (List Nat)) (k : Nat) :
    (groupAt (machinePass ts ms).1 k).Perm (groupAt ms k) := by
  induction ms generalizing ts k with
  | nil => exact List.Perm.refl _
  | cons m ms ih =>
    rw [machinePass]
    match k with
    | 0 => exact sortMachine_perm ts m
    | k + 1 => exact ih _ k

theorem resolveStep_machines_len (st : SolutionTemplate) :
    ((resolveStep st).1).machines.length = st.machines.length := by
  rw [resolveStep]
  exact machinePass_machines_len _ _

theorem resolveStep_machines_perm (st : SolutionTemplate) (k : Nat) :
    (groupAt (resolveStep st).1.machines k).Perm (groupAt st.machines k) := by
  rw [resolveStep]
  exact machinePass_machines_perm _ _ k

theorem resolve_machines_perm {f : Nat} {st st' : SolutionTemplate}
    (h : resolve_conflicts f st = some st') :
    st'.machines.length = st.machines.length ∧
      ∀ k, (groupAt st'.machines k).Perm (groupAt st.machines k) := by
  induction f generalizing st with
  | zero => simp [resolve_conflicts] at h
  | succ f ih =>
    rw [resolve_conflicts] at h
    by_cases hb : (resolveStep st).2
    · rw [if_pos hb] at h
      obtain ⟨h1, h2⟩ := ih h
      exact ⟨h1.trans (resolveStep_machines_len st),
        fun k => (h2 k).trans (resolveStep_machines_perm st k)⟩
    · rw [if_neg hb] at h
      rw [Option.some_inj] at h
      subst h
      exact ⟨resolveStep_machines_len st, resolveStep_machines_perm st⟩

theorem resolve_jobs {f : Nat} {st st' : SolutionTemplate}
    (h : resolve_conflicts f st = some st') : st'.jobs = st.jobs :=
  (resolve_some_resolved h).2

/-! Lemmas for the runtime bounds. -/

theorem foldl_add_init (l : List Task) (a : Int) :
    l.foldl (fun r t => r + t.len) a = a + l.foldl (fun r t => r + t.len) 0 := by
  induction l generalizing a with
  | nil => simp
  | cons t l ih =>
    rw [List.foldl_cons, List.foldl_cons, ih (a + t.len), ih (0 + t.len)]
    omega

theorem machineLoad_eq_sumLens (ts : List Task) (m : List Nat) :
    machineLoad ts m = sumLens (groupTasks ts m) := by
  unfold machineLoad sumLens groupTasks
  rw [List.foldl_map]

theorem chain'_end_bound {l : List Task} (h : l.Chain' seqRel) :
    ∀ t0, l.head? = some t0 → ∀ tl, l.getLast? = some tl →
      t0.start + sumLens l ≤ tl.start + tl.len := by
  induction l with
  | nil =>
    intro t0 h0
    cases h0
  | cons a l ih =>
    intro t0 h0 tl hl
    rw [List.head?_cons, Option.some_inj] at h0
    subst h0
    cases l with
    | nil =>
      rw [List.getLast?_singleton, Option.some_inj] at hl
      subst hl
      unfold sumLens
      simp
    | cons b l2 =>
      rw [List.chain'_cons] at h
      obtain ⟨hab, h2⟩ := h
      rw [List.getLast?_cons_cons] at hl
      have hb := ih h2 b rfl tl hl
      unfold seqRel at hab
      unfold sumLens at *
      rw [List.foldl_cons, foldl_add_init]
      omega

theorem total_runtime_go {ts : List Task} {ms : List (List Nat)} {a T : Int}
    (h : ms.foldlM (fun mx m =>
      (m.getLast?).map (fun i =>
        let t := taskAt ts i
        max mx (t.start + t.len))) a = some T) :
    a ≤ T ∧ ∀ m ∈ ms, ∃ i, m.getLast? = some i ∧
      (taskAt ts i).start + (taskAt ts i).len ≤ T := by
  induction ms generalizing a with
  | nil =>
    rw [List.foldlM_nil] at h
    have : a = T := by simpa using h
    subst this
    exact ⟨le_refl a, by simp⟩
  | cons m ms ih =>
    rw [List.foldlM_cons] at h
    rcases hg : m.getLast? with _ | i
    · rw [hg] at h
      simp at h
    · rw [hg] at h
      simp only [Option.map_some', Option.some_bind] at h
      obtain ⟨h1, h2⟩ := ih h
      have hend : (taskAt ts i).start + (taskAt ts i).len ≤ T :=
        le_trans (le_max_right a _) h1
      refine ⟨le_trans (le_max_left a _) h1, fun m2 hm2 => ?_⟩
      rcases List.mem_cons.mp hm2 with rfl | hm2
      · exact ⟨i, hg, hend⟩
      · exact h2 m2 hm2

theorem total_runtime_some_spec {st : SolutionTemplate} {T : Int}
    (h : total_runtime st = some T) :
    0 ≤ T ∧ ∀ m ∈ st.machines, ∃ i, m.getLast? = some i ∧
      (taskAt st.tasks i).start + (taskAt st.tasks i).len ≤ T :=
  total_runtime_go h

theorem total_runtime_go_none {ts : List Task} {ms : List (List Nat)}
    (hm : [] ∈ ms) (a : Int) :
    ms.foldlM (fun mx m =>
      (m.getLast?).map (fun i =>
        let t := taskAt ts i
        max mx (t.start + t.len))) a = none := by
  induction ms generalizing a with
  | nil => cases hm
  | cons m2 ms ih =>
    rw [List.foldlM_cons]
    rcases List.mem_cons.mp hm with rfl | hm2
    · simp
    · rcases hg : m2.getLast? with _ | i
      · simp
      · simp only [Option.map_some', Option.some_bind]
        exact ih hm2 _

theorem total_runtime_none_of_empty {st : SolutionTemplate}
    (hm : [] ∈ st.machines) : total_runtime st = none :=
  total_runtime_go_none hm 0

theorem total_runtime_go_isSome {ts : List Task} {ms : List (List Nat)}
    (h : ∀ m ∈ ms, m ≠ []) (a : Int) :
    ∃ T, ms.foldlM (fun mx m =>
      (m.getLast?).map (fun i =>
        let t := taskAt ts i
        max mx (t.start + t.len))) a = some T := by
  induction ms generalizing a with
  | nil => exact ⟨a, rfl⟩
  | cons m ms ih =>
    have hne : m ≠ [] := h m (List.mem_cons_self m ms)
    have hs : m.getLast?.isSome := List.getLast?_isSome.mpr hne
    rcases hg : m.getLast? with _ | i
    · rw [hg] at hs
      cases hs
    · rw [List.foldlM_cons, hg]
      simp only [Option.map_some', Option.some_bind]
      exact ih (fun m2 hm2 => h m2 (List.mem_cons_of_mem _ hm2)) _

theorem total_runtime_isSome {st : SolutionTemplate}
    (h : ∀ m ∈ st.machines, m ≠ []) : ∃ T, total_runtime st = some T :=
  total_runtime_go_isSome h 0

theorem foldl_max_le {ts : List Task} {ms : List (List Nat)} {a T : Int}
    (ha : a ≤ T) (h : ∀ m ∈ ms, machineLoad ts m ≤ T) :
    ms.foldl (fun mx m => max mx (machineLoad ts m)) a ≤ T := by
  induction ms generalizing a with
  | nil => exact ha
  | cons m ms ih =>
    rw [List.foldl_cons]
    exact ih (max_le ha (h m (List.mem_cons_self m ms)))
      (fun m2 hm2 => h m2 (List.mem_cons_of_mem _ hm2))

/-- The central lower-bound argument: in a repaired template with
non-negative durations and non-negative start times, every machine load is
dominated by the end time of the last task on that machine, so the maximal
load (the absolute lowest bound) cannot exceed the total runtime. -/
theorem resolved_runtime_lower_bound {st : SolutionTemplate} {T : Int}
    (hres : resolved st) (hstart : ∀ i, 0 ≤ (taskAt st.tasks i).start)
    (hT : total_runtime st = some T) :
    calculate_absolute_lowest_bound st ≤ T := by
  obtain ⟨h0, hend⟩ := total_runtime_some_spec hT
  unfold calculate_absolute_lowest_bound
  apply foldl_max_le h0
  intro m hm
  obtain ⟨i, hg, hi⟩ := hend m hm
  cases m with
  | nil => cases hg
  | cons a0 m2 =>
    have hchain := (hres.2 _ hm).2
    have hhead : (groupTasks st.tasks (a0 :: m2)).head? = some (taskAt st.tasks a0) := by
      rw [groupTasks, List.map_cons, List.head?_cons]
    have hlast : (groupTasks st.tasks (a0 :: m2)).getLast? = some (taskAt st.tasks i) := by
      rw [groupTasks, List.getLast?_map, hg]
      rfl
    have hb := chain'_end_bound hchain _ hhead _ hlast
    rw [machineLoad_eq_sumLens]
    have := hstart a0
    omega

/-! Transfer of non-negativity and of the bounds across load and repair. -/

theorem chromNonneg_getD {ch : Chromosome} (h : chromNonneg ch) (i : Nat) :
    0 ≤ ch.getD i 0 := by
  rw [List.getD_eq_getElem?_getD]
  rcases hg : ch[i]? with _ | x
  · exact le_refl 0
  · exact h x (List.getElem?_mem hg)

theorem fill_starts_nonneg {st st0 : SolutionTemplate} {c : Chromosome}
    (h : fill_start_times st c = some st0) (hc : chromNonneg c) :
    ∀ i, 0 ≤ (taskAt st0.tasks i).start := by
  obtain ⟨hlen, htasks, -, -⟩ := fill_some_parts h
  intro i
  rw [htasks, taskAt_loadStarts hlen]
  exact chromNonneg_getD hc i

theorem shifted_starts_nonneg {ts ts' : List Task} (hs : Shifted ts ts')
    (h : ∀ i, 0 ≤ (taskAt ts i).start) : ∀ i, 0 ≤ (taskAt ts' i).start :=
  fun i => le_trans (h i) ((hs.2 i).2.2.2.2)

theorem fill_lens {st st0 : SolutionTemplate} {c : Chromosome}
    (h : fill_start_times st c = some st0) (i : Nat) :
    (taskAt st0.tasks i).len = (taskAt st.tasks i).len := by
  obtain ⟨hlen, htasks, -, -⟩ := fill_some_parts h
  rw [htasks, taskAt_loadStarts hlen]

theorem shifted_lens {ts ts' : List Task} (hs : Shifted ts ts') (i : Nat) :
    (taskAt ts' i).len = (taskAt ts i).len := (hs.2 i).2.2.2.1

theorem sumLens_perm {l1 l2 : List Task} (h : l1.Perm l2) :
    sumLens l1 = sumLens l2 :=
  h.foldl_eq' (fun x _ y _ z => by omega) 0

theorem groupAt_lt {gs : List (List Nat)} {k : Nat} (h : k < gs.length) :
    groupAt gs k = gs[k] := by
  unfold groupAt
  rw [List.getD_eq_getElem?_getD, List.getElem?_eq_getElem h]
  rfl

theorem groupAt_ge {gs : List (List Nat)} {k : Nat} (h : gs.length ≤ k) :
    groupAt gs k = [] := by
  unfold groupAt
  rw [List.getD_eq_getElem?_getD, List.getElem?_eq_none h]
  rfl

/-- Machine loads are invariant under any permutation of a group and any
change of the catalog that keeps every duration. -/
theorem machineLoad_congr {ts ts' : List Task} {m m' : List Nat}
    (hperm : m'.Perm m) (hlen : ∀ i, (taskAt ts' i).len = (taskAt ts i).len) :
    machineLoad ts' m' = machineLoad ts m := by
  unfold machineLoad
  have h1 : m'.foldl (fun r i => r + (taskAt ts' i).len) 0 =
      m'.foldl (fun r i => r + (taskAt ts i).len) 0 :=
    List.foldl_ext _ _ 0 (fun a b _ => by rw [hlen b])
  rw [h1]
  exact hperm.foldl_eq' (fun x _ y _ z => by omega) 0

/-- The absolute lowest bound is unchanged by load and repair: the machine
groups are only permuted and the durations never change. -/
theorem alb_congr {st st' : SolutionTemplate}
    (hml : st'.machines.length = st.machines.length)
    (hperm : ∀ k, (groupAt st'.machines k).Perm (groupAt st.machines k))
    (hlen : ∀ i, (taskAt st'.tasks i).len = (taskAt st.tasks i).len) :
    calculate_absolute_lowest_bound st' = calculate_absolute_lowest_bound st := by
  unfold calculate_absolute_lowest_bound
  rw [← List.foldl_map (f := machineLoad st'.tasks) (g := fun mx v => max mx v),
    ← List.foldl_map (f := machineLoad st.tasks) (g := fun mx v => max mx v)]
  have : st'.machines.map (machineLoad st'.tasks) = st.machines.map (machineLoad st.tasks) := by
    apply List.ext_getElem (by simpa using hml)
    intro k h1 h2
    rw [List.getElem_map, List.getElem_map]
    have hk1 : k < st'.machines.length := by simpa using h1
    have hk2 : k < st.machines.length := by simpa using h2
    rw [← groupAt_lt hk1, ← groupAt_lt hk2]
    exact machineLoad_congr (hperm k) hlen
  rw [this]

theorem groupAt_map {gs : List (List Nat)} {k : Nat}
    (f : List Nat → List Nat) (hk : k < gs.length) :
    groupAt (gs.map f) k = f (groupAt gs k) := by
  rw [groupAt_lt (by simpa using hk), groupAt_lt hk, List.getElem_map]

/-! Claim theorems. -/

/-- Claim C1 (confirmed): feasibility postcondition of repair.  For every
chromosome loaded into the solution template (whose durations are
non-negative, the data-model invariant of every instance), if
resolve_conflicts terminates then in the resulting schedule every machine
group is pairwise non-overlapping and every job group satisfies
start_i + duration_i <= start_(i+1) on each adjacent pair. -/
theorem resolve_conflicts_feasible (st st0 st1 : SolutionTemplate)
    (ch : Chromosome) (f : Nat)
    (hlen : lensNonneg st.tasks)
    (h0 : fill_start_times st ch = some st0)
    (h1 : resolve_conflicts f st0 = some st1) :
    machinesNonOverlapping st1 ∧ jobsSequenced st1 := by
  have hres := (resolve_some_resolved h1).1
  apply resolved_feasible hres
  intro i
  rw [shifted_lens (shifted_resolve h1) i, fill_lens h0 i]
  exact lensNonneg_taskAt hlen i

theorem resolve_conflicts_feasible_witness :
    machinesNonOverlapping exampleLoaded ∧ jobsSequenced exampleLoaded :=
  resolve_conflicts_feasible exampleTemplate exampleLoaded exampleLoaded
    [0, 4, 0, 7] 1 (by decide) (by decide) (by decide)

/-- Claim C9 (confirmed): repair is monotone on start times.  Every single
iteration of the repair loop, and therefore any terminating run of
resolve_conflicts, only moves start times forward: the start time of every
task after the pass is at least its start time before. -/
theorem resolve_conflicts_monotone :
    (∀ st : SolutionTemplate, ∀ i,
      (taskAt st.tasks i).start ≤ (taskAt (resolveStep st).1.tasks i).start) ∧
    (∀ (f : Nat) (st st1 : SolutionTemplate), resolve_conflicts f st = some st1 →
      ∀ i, (taskAt st.tasks i).start ≤ (taskAt st1.tasks i).start) :=
  ⟨fun st i => ((shifted_resolveStep st).2 i).2.2.2.2,
   fun _ _ _ h i => ((shifted_resolve h).2 i).2.2.2.2⟩

theorem resolve_conflicts_monotone_witness :
    (taskAt exampleLoaded.tasks 0).start ≤ (taskAt exampleLoaded.tasks 0).start :=
  resolve_conflicts_monotone.2 1 exampleLoaded exampleLoaded (by decide) 0

/-- Claim C5 (confirmed): idempotence of repair.  A state in which
resolve_conflicts has just terminated is a fixed point: running
resolve_conflicts again (any positive fuel) succeeds immediately, changes
nothing, and in particular get_chromosome returns the identical
chromosome. -/
theorem resolve_conflicts_idempotent (f : Nat) (st st1 : SolutionTemplate)
    (h : resolve_conflicts f st = some st1) (f2 : Nat) (hf2 : 0 < f2) :
    resolve_conflicts f2 st1 = some st1 ∧
      (resolve_conflicts f2 st1).map get_chromosome = some (get_chromosome st1) := by
  have h2 := resolve_of_resolved (resolve_some_resolved h).1 hf2
  exact ⟨h2, by rw [h2]; rfl⟩

theorem resolve_conflicts_idempotent_witness :
    resolve_conflicts 1 exampleLoaded = some exampleLoaded ∧
      (resolve_conflicts 1 exampleLoaded).map get_chromosome =
        some (get_chromosome exampleLoaded) :=
  resolve_conflicts_idempotent 1 exampleLoaded exampleLoaded (by decide) 1 (by decide)

/-- Claim C3 (corrected), counterexample: the one-task instance has
horizon = absolute lowest bound = 1 and the chromosome [0] repairs to
total runtime 1 = that common value, yet fitness does not return 1.0: the
guards T < L and H < T both fail and the division is evaluated with a zero
denominator (IEEE NaN, modelled as none). -/
theorem fitness_guard_counterexample :
    calculate_horizon tinyTemplate = calculate_absolute_lowest_bound tinyTemplate ∧
      ((fill_start_times tinyTemplate [0]).bind (resolve_conflicts 1)).bind total_runtime
        = some 1 ∧
      calculate_absolute_lowest_bound tinyTemplate = 1 ∧
      fitness (calculate_horizon tinyTemplate)
        (calculate_absolute_lowest_bound tinyTemplate) 1 ≠ some 1 :=
  ⟨by decide, by decide, by decide, by decide⟩

/-- Claim C3 (corrected), amended: when the cached horizon equals the
cached absolute lowest bound and the total runtime equals that common
value, fitness() is NOT guarded: it reaches the final division with a zero
denominator (0.0/0.0, IEEE NaN, modelled as none) instead of returning
1.0.  The only guards present are T < L (returning 1.0) and T > H
(returning 0.0). -/
theorem fitness_zero_denominator (H L T : Int) (hHL : H = L) (hTL : T = L) :
    fitness H L T = none := by
  subst hHL
  subst hTL
  unfold fitness
  simp

theorem fitness_zero_denominator_witness : fitness 1 1 1 = none :=
  fitness_zero_denominator 1 1 1 rfl rfl

/-- Claim C4 (confirmed): the fitness formula and its consequences when
the cached horizon H strictly exceeds the cached lowest bound L: the value
is 1.0 below L, 0.0 above H, the exact linear normalization
1 - (T-L)/(H-L) in between; every returned value lies in [0,1]; the
function is monotonically non-increasing in the total runtime; it equals
1.0 at T = L and 0.0 at every T >= H. -/
theorem fitness_formula (H L : Int) (hHL : L < H) :
    (∀ T : Int, T < L → fitness H L T = some 1) ∧
    (∀ T : Int, H < T → fitness H L T = some 0) ∧
    (∀ T : Int, L ≤ T → T ≤ H →
      fitness H L T = some (1 - ((T : ℚ) - (L : ℚ)) / ((H : ℚ) - (L : ℚ)))) ∧
    (∀ (T : Int) (q : ℚ), fitness H L T = some q → 0 ≤ q ∧ q ≤ 1) ∧
    (∀ (T1 T2 : Int) (q1 q2 : ℚ), T1 ≤ T2 →
      fitness H L T1 = some q1 → fitness H L T2 = some q2 → q2 ≤ q1) ∧
    fitness H L L = some 1 ∧
    (∀ T : Int, H ≤ T → fitness H L T = some 0) := by
  have hne : H ≠ L := by omega
  have hdpos : (0 : ℚ) < (H : ℚ) - (L : ℚ) := by
    have : (L : ℚ) < (H : ℚ) := by exact_mod_cast hHL
    linarith
  have hcases : ∀ (T : Int) (q : ℚ), fitness H L T = some q →
      (T < L ∧ q = 1) ∨ (H < T ∧ q = 0) ∨
        (L ≤ T ∧ T ≤ H ∧ q = 1 - ((T : ℚ) - (L : ℚ)) / ((H : ℚ) - (L : ℚ))) := by
    intro T q h
    unfold fitness at h
    by_cases h1 : T < L
    · rw [if_pos h1] at h
      exact Or.inl ⟨h1, (Option.some_inj.mp h).symm⟩
    · rw [if_neg h1] at h
      by_cases h2 : H < T
      · rw [if_pos h2] at h
        exact Or.inr (Or.inl ⟨h2, (Option.some_inj.mp h).symm⟩)
      · rw [if_neg h2, if_neg hne] at h
        exact Or.inr (Or.inr ⟨by omega, by omega, (Option.some_inj.mp h).symm⟩)
  have hmid : ∀ T : Int, L ≤ T → T ≤ H →
      fitness H L T = some (1 - ((T : ℚ) - (L : ℚ)) / ((H : ℚ) - (L : ℚ))) := by
    intro T hL hH
    unfold fitness
    rw [if_neg (by omega), if_neg (by omega), if_neg hne]
  have hratio : ∀ T : Int, L ≤ T → T ≤ H →
      0 ≤ ((T : ℚ) - (L : ℚ)) / ((H : ℚ) - (L : ℚ)) ∧
        ((T : ℚ) - (L : ℚ)) / ((H : ℚ) - (L : ℚ)) ≤ 1 := by
    intro T hL hH
    have hn0 : (0 : ℚ) ≤ (T : ℚ) - (L : ℚ) := by
      have : (L : ℚ) ≤ (T : ℚ) := by exact_mod_cast hL
      linarith
    have hn1 : (T : ℚ) - (L : ℚ) ≤ (H : ℚ) - (L : ℚ) := by
      have : (T : ℚ) ≤ (H : ℚ) := by exact_mod_cast hH
      linarith
    exact ⟨div_nonneg hn0 (le_of_lt hdpos), (div_le_one hdpos).mpr hn1⟩
  have hrange : ∀ (T : Int) (q : ℚ), fitness H L T = some q → 0 ≤ q ∧ q ≤ 1 := by
    intro T q h
    rcases hcases T q h with ⟨-, rfl⟩ | ⟨-, rfl⟩ | ⟨hL, hH, rfl⟩
    · exact ⟨by norm_num, by norm_num⟩
    · exact ⟨by norm_num, by norm_num⟩
    · obtain ⟨r0, r1⟩ := hratio T hL hH
      constructor <;> linarith
  refine ⟨?_, ?_, hmid, hrange, ?_, ?_, ?_⟩
  · intro T h
    unfold fitness
    rw [if_pos h]
  · intro T h
    unfold fitness
    rw [if_neg (by omega), if_pos h]
  · intro T1 T2 q1 q2 hT h1 h2
    rcases hcases T1 q1 h1 with ⟨hc1, rfl⟩ | ⟨hc1, rfl⟩ | ⟨ha1, hb1, rfl⟩
    · exact (hrange T2 q2 h2).2
    · rcases hcases T2 q2 h2 with ⟨hc2, rfl⟩ | ⟨hc2, rfl⟩ | ⟨ha2, hb2, rfl⟩
      · omega
      · exact le_refl 0
      · omega
    · rcases hcases T2 q2 h2 with ⟨hc2, rfl⟩ | ⟨hc2, rfl⟩ | ⟨ha2, hb2, rfl⟩
      · omega
      · have := (hratio T1 ha1 hb1).2
        linarith
      · have hnum : (T1 : ℚ) - (L : ℚ) ≤ (T2 : ℚ) - (L : ℚ) := by
          have : (T1 : ℚ) ≤ (T2 : ℚ) := by exact_mod_cast hT
          linarith
        have hmon : ((T1 : ℚ) - (L : ℚ)) / ((H : ℚ) - (L : ℚ)) ≤
            ((T2 : ℚ) - (L : ℚ)) / ((H : ℚ) - (L : ℚ)) :=
          (div_le_div_iff_of_pos_right hdpos).mpr hnum
        linarith
  · have := hmid L (le_refl L) (le_of_lt hHL)
    rw [this]
    norm_num
  · intro T h
    by_cases hTH : T = H
    · subst hTH
      have := hmid T (by omega) (le_refl T)
      rw [this]
      rw [div_self (by linarith)]
      norm_num
    · unfold fitness
      rw [if_neg (by omega), if_pos (by omega)]

theorem fitness_formula_witness :
    fitness 2 0 1 = some (1 - ((1 : ℚ) - (0 : ℚ)) / ((2 : ℚ) - (0 : ℚ))) :=
  (fitness_formula 2 0 (by decide)).2.2.1 1 (by decide) (by decide)

/-- Claim C2 (corrected), counterexample: on the one-task instance
(horizon 1) the chromosome [100] is loaded and repaired successfully, the
repaired total runtime is 101, and 101 is not at most the horizon 1: the
claimed upper bound total_runtime() <= horizon() is false. -/
theorem runtime_bounds_counterexample :
    ((fill_start_times tinyTemplate [100]).bind (resolve_conflicts 1)).bind total_runtime
        = some 101 ∧
      calculate_horizon tinyTemplate = 1 ∧ ¬ ((101 : Int) ≤ 1) :=
  ⟨by decide, by decide, by decide⟩

/-- Claim C2 (corrected), amended: for every chromosome with non-negative
entries that is loaded and successfully repaired, the lower bound
absolute_lowest_bound() <= total_runtime() holds; the upper bound
total_runtime() <= horizon() does not hold in general (see the
counterexample). -/
theorem runtime_lower_bound_amended (st st0 st1 : SolutionTemplate)
    (ch : Chromosome) (f : Nat) (T : Int)
    (hc : chromNonneg ch)
    (h0 : fill_start_times st ch = some st0)
    (h1 : resolve_conflicts f st0 = some st1)
    (hT : total_runtime st1 = some T) :
    calculate_absolute_lowest_bound st ≤ T ∧
      calculate_absolute_lowest_bound st1 = calculate_absolute_lowest_bound st := by
  have hres := (resolve_some_resolved h1).1
  have hstart := shifted_starts_nonneg (shifted_resolve h1) (fill_starts_nonneg h0 hc)
  have hb := resolved_runtime_lower_bound hres hstart hT
  obtain ⟨hlenc, htasks, hjobs, hms⟩ := fill_some_parts h0
  have e1 : calculate_absolute_lowest_bound st1 = calculate_absolute_lowest_bound st0 :=
    alb_congr (resolve_machines_perm h1).1 (resolve_machines_perm h1).2
      (shifted_lens (shifted_resolve h1))
  have e2 : calculate_absolute_lowest_bound st0 = calculate_absolute_lowest_bound st := by
    apply alb_congr
    · rw [hms]
      exact List.length_map st.machines _
    · intro k
      by_cases hk : k < st.machines.length
      · rw [hms, groupAt_map _ hk]
        exact sortMachine_perm _ _
      · have hlen0 : st0.machines.length ≤ k := by
          rw [hms, List.length_map]
          omega
        rw [groupAt_ge hlen0, groupAt_ge (by omega : st.machines.length ≤ k)]
    · intro i
      rw [htasks, taskAt_loadStarts hlenc]
  exact ⟨by omega, by omega⟩

theorem runtime_lower_bound_amended_witness :
    calculate_absolute_lowest_bound exampleTemplate ≤ 8 ∧
      calculate_absolute_lowest_bound exampleLoaded =
        calculate_absolute_lowest_bound exampleTemplate :=
  runtime_lower_bound_amended exampleTemplate exampleLoaded exampleLoaded
    [0, 4, 0, 7] 1 8 (by decide) (by decide) (by decide) (by decide)

/-- Claim C6 (code_bug): common.h declares typedef int Fitness, so the
assignment of the double fitness() result into a Specimen truncates toward
zero.  On the two-job example the chromosome [0,4,0,7] repairs to total
runtime 8 with horizon 10 and lowest bound 6, the real-valued fitness is
1/2 in (0,1), but the value stored in the Specimen is the integer 0: the
stored fitness does not equal the real-valued fitness of the chromosome
and carries none of its information. -/
theorem specimen_fitness_truncated :
    ((fill_start_times exampleTemplate [0, 4, 0, 7]).bind (resolve_conflicts 1)).bind
        total_runtime = some 8 ∧
      calculate_horizon exampleTemplate = 10 ∧
      calculate_absolute_lowest_bound exampleTemplate = 6 ∧
      fitness 10 6 8 = some (1 / 2 : ℚ) ∧
      assignFitness (1 / 2 : ℚ) = 0 ∧ ((0 : ℚ) ≠ (1 / 2 : ℚ)) := by
  refine ⟨by decide, by decide, by decide, ?_, ?_, by norm_num⟩
  · unfold fitness
    norm_num
  · unfold assignFitness doubleToInt
    have h1 : ((1 : ℚ) / 2).num = 1 := by norm_num
    have h2 : ((1 : ℚ) / 2).den = 2 := by norm_num
    rw [h1, h2]
    decide

/-- Claim C7 (confirmed): behaviour of load.  fill_start_times fails
exactly when the chromosome length differs from the task count; on
success it copies each chromosome value into the start time of the task
with the same index (all other task fields unchanged), leaves the job
groups untouched, and replaces every machine group by a permutation of
itself that is sorted ascending by the new start times. -/
theorem fill_start_times_spec (st : SolutionTemplate) (ch : Chromosome) :
    (fill_start_times st ch = none ↔ ch.length ≠ st.tasks.length) ∧
    (∀ st0, fill_start_times st ch = some st0 →
      st0.jobs = st.jobs ∧
      st0.tasks.length = st.tasks.length ∧
      (∀ i, taskAt st0.tasks i = { taskAt st.tasks i with start := ch.getD i 0 }) ∧
      st0.machines.length = st.machines.length ∧
      (∀ k, (groupAt st0.machines k).Perm (groupAt st.machines k) ∧
        sortedIdx st0.tasks (groupAt st0.machines k))) := by
  refine ⟨fill_eq_none_iff st ch, ?_⟩
  intro st0 h
  obtain ⟨hlenc, htasks, hjobs, hms⟩ := fill_some_parts h
  refine ⟨hjobs, ?_, ?_, ?_, ?_⟩
  · rw [htasks]
    exact length_loadStarts hlenc
  · intro i
    rw [htasks]
    exact taskAt_loadStarts hlenc i
  · rw [hms]
    exact List.length_map st.machines _
  · intro k
    by_cases hk : k < st.machines.length
    · constructor
      · rw [hms, groupAt_map _ hk]
        exact sortMachine_perm _ _
      · rw [hms, groupAt_map _ hk, htasks]
        exact sortedIdx_sortMachine _ _
    · have h0 : st0.machines.length ≤ k := by
        rw [hms, List.length_map]
        omega
      rw [groupAt_ge h0, groupAt_ge (by omega : st.machines.length ≤ k)]
      exact ⟨List.Perm.refl _, List.Pairwise.nil⟩

theorem fill_start_times_spec_witness :
    fill_start_times exampleTemplate [0, 4] = none ∧
      exampleLoaded.jobs = exampleTemplate.jobs :=
  ⟨(fill_start_times_spec exampleTemplate [0, 4]).1.mpr (by decide),
   ((fill_start_times_spec exampleTemplate [0, 4, 0, 7]).2 exampleLoaded (by decide)).1⟩

/-! Support lemmas for the genetic operators. -/

theorem get_chromosome_getD {st1 : SolutionTemplate} {i : Nat}
    (hi : i < st1.tasks.length) :
    (get_chromosome st1).getD i 0 = (taskAt st1.tasks i).start := by
  unfold get_chromosome
  rw [List.getD_eq_getElem?_getD, List.getElem?_map, List.getElem?_eq_getElem hi]
  rw [taskAt_lt hi]
  rfl

theorem loadStarts_get_chromosome {st st1 : SolutionTemplate}
    (hl : st1.tasks.length = st.tasks.length)
    (hcat : ∀ i, (taskAt st1.tasks i).job = (taskAt st.tasks i).job ∧
      (taskAt st1.tasks i).machine = (taskAt st.tasks i).machine ∧
      (taskAt st1.tasks i).seq = (taskAt st.tasks i).seq ∧
      (taskAt st1.tasks i).len = (taskAt st.tasks i).len) :
    loadStarts st (get_chromosome st1) = st1.tasks := by
  have hglen : (get_chromosome st1).length = st.tasks.length := by
    unfold get_chromosome
    rw [List.length_map]
    omega
  apply List.ext_getElem
  · rw [length_loadStarts hglen]
    omega
  · intro i h1 h2
    have hi1 : i < st.tasks.length := by
      rw [length_loadStarts hglen] at h1
      omega
    rw [← taskAt_lt h1, ← taskAt_lt h2, taskAt_loadStarts hglen i]
    obtain ⟨ha, hb, hc2, hd⟩ := hcat i
    have hstart : (get_chromosome st1).getD i 0 = (taskAt st1.tasks i).start :=
      get_chromosome_getD (by omega)
    exact Task.ext1 ha.symm hb.symm hc2.symm hd.symm hstart

/-- What the load-repair-extract pipeline guarantees about its result: the
extracted chromosome has the same length as the input (both equal the task
count) and is feasible for the template, because it carries exactly the
start times of the repaired state. -/
theorem repairChromosome_spec (st : SolutionTemplate) (fuel : Nat)
    (ch r : Chromosome) (hlen : lensNonneg st.tasks)
    (h : repairChromosome fuel st ch = some r) :
    r.length = ch.length ∧ chromFeasible st r := by
  unfold repairChromosome at h
  obtain ⟨st0, hf, h⟩ := Option.bind_eq_some.mp h
  obtain ⟨st1, hr, h⟩ := Option.bind_eq_some.mp h
  rw [Option.some_inj] at h
  subst h
  obtain ⟨hlenc, htasks, hjobs, hms⟩ := fill_some_parts hf
  have hsh := shifted_resolve hr
  have hres := (resolve_some_resolved hr).1
  have hl1 : st1.tasks.length = st.tasks.length := by
    rw [hsh.1, htasks, length_loadStarts hlenc]
  have hcat : ∀ i, (taskAt st1.tasks i).job = (taskAt st.tasks i).job ∧
      (taskAt st1.tasks i).machine = (taskAt st.tasks i).machine ∧
      (taskAt st1.tasks i).seq = (taskAt st.tasks i).seq ∧
      (taskAt st1.tasks i).len = (taskAt st.tasks i).len := by
    intro i
    obtain ⟨ha, hb, hc2, hd, -⟩ := hsh.2 i
    rw [ha, hb, hc2, hd, htasks, taskAt_loadStarts hlenc]
    exact ⟨rfl, rfl, rfl, rfl⟩
  have hload : loadStarts st (get_chromosome st1) = st1.tasks :=
    loadStarts_get_chromosome hl1 hcat
  have hlen1 : ∀ i, 0 ≤ (taskAt st1.tasks i).len := by
    intro i
    rw [(hcat i).2.2.2]
    exact lensNonneg_taskAt hlen i
  have hfeas := resolved_feasible hres hlen1
  constructor
  · unfold get_chromosome
    rw [List.length_map]
    omega
  · constructor
    · intro g hg
      rw [hload]
      have hg1 : g ∈ st1.jobs := by
        rw [resolve_jobs hr, hjobs]
        exact hg
      exact hres.1 g hg1
    · intro m hm
      rw [hload]
      obtain ⟨k, hk, hkm⟩ := List.mem_iff_getElem.mp hm
      have hmk : groupAt st.machines k = m := by
        rw [groupAt_lt hk, hkm]
      have hperm0 : (groupAt st0.machines k).Perm (groupAt st.machines k) := by
        rw [hms, groupAt_map _ hk]
        exact sortMachine_perm _ _
      have hperm1 : (groupAt st1.machines k).Perm m := by
        rw [← hmk]
        exact ((resolve_machines_perm hr).2 k).trans hperm0
      have hk1 : k < st1.machines.length := by
        rw [(resolve_machines_perm hr).1, hms, List.length_map]
        exact hk
      have hmem1 : groupAt st1.machines k ∈ st1.machines := by
        rw [groupAt_lt hk1]
        exact List.getElem_mem hk1
      have hp1 := hfeas.1 (groupAt st1.machines k) hmem1
      have hpm : (groupTasks st1.tasks (groupAt st1.machines k)).Perm
          (groupTasks st1.tasks m) := hperm1.map (taskAt st1.tasks)
      exact (hpm.pairwise_iff (fun hab => Or.symm hab)).mp hp1

/-- Claim C8 (confirmed): the genetic operators preserve length and
feasibility.  Whenever crossover_1point, crossover_2point or mutate
returns a result (equal-length parents of length at least 3 for the
crossovers, and the embedded repair terminating), the returned chromosomes
have the same length as the inputs and are feasible: loading them back
gives pairwise non-overlapping machines and correctly sequenced jobs. -/
theorem genetic_operators_spec (st : SolutionTemplate) (hlen : lensNonneg st.tasks) :
    (∀ (fuel point : Nat) (left right o1 o2 : Chromosome),
      crossover_1point fuel point st left right = some (o1, o2) →
      o1.length = left.length ∧ o2.length = left.length ∧
        chromFeasible st o1 ∧ chromFeasible st o2) ∧
    (∀ (fuel p1 p2 : Nat) (left right o1 o2 : Chromosome),
      crossover_2point fuel p1 p2 st left right = some (o1, o2) →
      o1.length = left.length ∧ o2.length = left.length ∧
        chromFeasible st o1 ∧ chromFeasible st o2) ∧
    (∀ (fuel position : Nat) (delta : Int) (input om : Chromosome),
      mutate fuel position delta st input = some om →
      om.length = input.length ∧ chromFeasible st om) := by
  refine ⟨?_, ?_, ?_⟩
  · intro fuel point left right o1 o2 h
    unfold crossover_1point at h
    by_cases h1 : left.length ≠ right.length
    · rw [if_pos h1] at h
      cases h
    rw [if_neg h1] at h
    by_cases h2 : left.length < 3
    · rw [if_pos h2] at h
      cases h
    rw [if_neg h2] at h
    push_neg at h1
    obtain ⟨r1, hr1, h⟩ := Option.bind_eq_some.mp h
    obtain ⟨r2, hr2, h⟩ := Option.bind_eq_some.mp h
    rw [Option.some_inj, Prod.mk.injEq] at h
    obtain ⟨e1, e2⟩ := h
    subst e1
    subst e2
    obtain ⟨hl1, hf1⟩ := repairChromosome_spec st fuel _ _ hlen hr1
    obtain ⟨hl2, hf2⟩ := repairChromosome_spec st fuel _ _ hlen hr2
    rw [List.length_append, List.length_take, List.length_drop] at hl1 hl2
    exact ⟨by omega, by omega, hf1, hf2⟩
  · intro fuel p1 p2 left right o1 o2 h
    unfold crossover_2point at h
    by_cases h1 : left.length ≠ right.length
    · rw [if_pos h1] at h
      cases h
    rw [if_neg h1] at h
    by_cases h2 : left.length < 3
    · rw [if_pos h2] at h
      cases h
    rw [if_neg h2] at h
    push_neg at h1
    obtain ⟨r1, hr1, h⟩ := Option.bind_eq_some.mp h
    obtain ⟨r2, hr2, h⟩ := Option.bind_eq_some.mp h
    rw [Option.some_inj, Prod.mk.injEq] at h
    obtain ⟨e1, e2⟩ := h
    subst e1
    subst e2
    have hq : (if p2 < p1 then p2 else p1) ≤
        (if p2 < p1 then p1 else if p1 = p2 then p2 + 1 else p2) := by
      by_cases hc : p2 < p1
      · rw [if_pos hc, if_pos hc]
        omega
      · rw [if_neg hc, if_neg hc]
        by_cases hd : p1 = p2
        · rw [if_pos hd]
          omega
        · rw [if_neg hd]
          omega
    obtain ⟨hl1, hf1⟩ := repairChromosome_spec st fuel _ _ hlen hr1
    obtain ⟨hl2, hf2⟩ := repairChromosome_spec st fuel _ _ hlen hr2
    rw [List.length_append, List.length_append, List.length_take, List.length_take,
      List.length_drop, List.length_drop] at hl1 hl2
    exact ⟨by omega, by omega, hf1, hf2⟩
  · intro fuel position delta input om h
    unfold mutate at h
    obtain ⟨hl1, hf1⟩ := repairChromosome_spec st fuel _ _ hlen h
    rw [List.length_set] at hl1
    exact ⟨hl1, hf1⟩

theorem genetic_operators_spec_witness :
    (([0, 4, 0, 7] : Chromosome).length = ([0, 4, 0, 7] : Chromosome).length ∧
      ([0, 4, 0, 7] : Chromosome).length = ([0, 4, 0, 7] : Chromosome).length ∧
      chromFeasible exampleTemplate [0, 4, 0, 7] ∧
      chromFeasible exampleTemplate [0, 4, 0, 7]) ∧
    (([0, 4, 0, 7] : Chromosome).length = ([0, 4, 0, 7] : Chromosome).length ∧
      ([0, 4, 0, 7] : Chromosome).length = ([0, 4, 0, 7] : Chromosome).length ∧
      chromFeasible exampleTemplate [0, 4, 0, 7] ∧
      chromFeasible exampleTemplate [0, 4, 0, 7]) ∧
    (([0, 4, 0, 7] : Chromosome).length = ([0, 4, 0, 7] : Chromosome).length ∧
      chromFeasible exampleTemplate [0, 4, 0, 7]) :=
  ⟨(genetic_operators_spec exampleTemplate (by decide)).1 1 1
      [0, 4, 0, 7] [0, 4, 0, 7] [0, 4, 0, 7] [0, 4, 0, 7] (by decide),
   (genetic_operators_spec exampleTemplate (by decide)).2.1 1 1 2
      [0, 4, 0, 7] [0, 4, 0, 7] [0, 4, 0, 7] [0, 4, 0, 7] (by decide),
   (genetic_operators_spec exampleTemplate (by decide)).2.2 1 0 0
      [0, 4, 0, 7] [0, 4, 0, 7] (by decide)⟩

/-! Lemmas about the group shapes reachable through add_job. -/

theorem groupAt_set (gs : List (List Nat)) (j : Nat) (v : List Nat) (k : Nat) :
    groupAt (gs.set j v) k = if j = k ∧ j < gs.length then v else groupAt gs k := by
  unfold groupAt
  simp only [List.getD_eq_getElem?_getD, List.getElem?_set]
  by_cases h : j = k
  · subst h
    by_cases h2 : j < gs.length
    · simp [h2]
    · simp [h2, List.getElem?_eq_none (by omega : gs.length ≤ j)]
  · simp [h]

theorem groupAt_append_left {gs1 gs2 : List (List Nat)} {k : Nat}
    (h : k < gs1.length) : groupAt (gs1 ++ gs2) k = groupAt gs1 k := by
  unfold groupAt
  rw [List.getD_eq_getElem?_getD, List.getD_eq_getElem?_getD,
    List.getElem?_append_left h]

theorem length_appendAt (gs : List (List Nat)) (i x : Nat) :
    (appendAt gs i x).length = gs.length := List.length_set gs i _

theorem groupAt_appendAt (gs : List (List Nat)) (i x k : Nat) :
    groupAt (appendAt gs i x) k =
      if i = k ∧ i < gs.length then groupAt gs k ++ [x] else groupAt gs k := by
  unfold appendAt
  rw [groupAt_set]
  by_cases h : i = k ∧ i < gs.length
  · obtain ⟨h1, h2⟩ := h
    subst h1
    rw [if_pos ⟨rfl, h2⟩]
  · rw [if_neg h, if_neg h]

theorem length_growGroups (gs : List (List Nat)) (n : Nat) :
    (growGroups gs n).length = max gs.length n := by
  unfold growGroups
  by_cases h : gs.length < n
  · rw [if_pos h, List.length_append, List.length_replicate]
    omega
  · rw [if_neg h]
    omega

theorem groupAt_growGroups (gs : List (List Nat)) (n k : Nat) :
    groupAt (growGroups gs n) k = groupAt gs k := by
  unfold growGroups
  by_cases h : gs.length < n
  · rw [if_pos h]
    by_cases hk : k < gs.length
    · exact groupAt_append_left hk
    · unfold groupAt
      rw [List.getD_eq_getElem?_getD, List.getD_eq_getElem?_getD,
        List.getElem?_append_right (by omega : gs.length ≤ k),
        List.getElem?_eq_none (by omega : gs.length ≤ k), List.getElem?_replicate]
      by_cases h2 : k - gs.length < n - gs.length
      · rw [if_pos h2]
        rfl
      · rw [if_neg h2]
  · rw [if_neg h]

theorem addStep_jobs (j : Nat) (acc : SolutionTemplate × Nat) (sp : Nat × Int) :
    ((addStep j acc sp).1).jobs = appendAt acc.1.jobs j acc.1.tasks.length := rfl

theorem addStep_machines (j : Nat) (acc : SolutionTemplate × Nat) (sp : Nat × Int) :
    ((addStep j acc sp).1).machines =
      appendAt (growGroups acc.1.machines (sp.1 + 1)) sp.1 acc.1.tasks.length := rfl

theorem addStep_machines_len (j : Nat) (acc : SolutionTemplate × Nat) (sp : Nat × Int) :
    ((addStep j acc sp).1).machines.length = max acc.1.machines.length (sp.1 + 1) := by
  rw [addStep_machines, length_appendAt, length_growGroups]

theorem fold_jobs_len (j : Nat) (steps : List (Nat × Int))
    (acc : SolutionTemplate × Nat) :
    ((steps.foldl (addStep j) acc).1).jobs.length = acc.1.jobs.length := by
  induction steps generalizing acc with
  | nil => rfl
  | cons sp rest ih =>
    rw [List.foldl_cons, ih, addStep_jobs, length_appendAt]

theorem fold_jobs_groupAt_pres (j : Nat) (steps : List (Nat × Int))
    (acc : SolutionTemplate × Nat) (k : Nat)
    (h : groupAt acc.1.jobs k ≠ []) :
    groupAt ((steps.foldl (addStep j) acc).1).jobs k ≠ [] := by
  induction steps generalizing acc with
  | nil => exact h
  | cons sp rest ih =>
    rw [List.foldl_cons]
    apply ih
    rw [addStep_jobs, groupAt_appendAt]
    by_cases hc : j = k ∧ j < acc.1.jobs.length
    · rw [if_pos hc]
      simp
    · rw [if_neg hc]
      exact h

theorem fold_jobs_groupAt_new (j : Nat) (steps : List (Nat × Int))
    (acc : SolutionTemplate × Nat) (hj : j < acc.1.jobs.length) (hs : steps ≠ []) :
    groupAt ((steps.foldl (addStep j) acc).1).jobs j ≠ [] := by
  cases steps with
  | nil => cases hs rfl
  | cons sp rest =>
    rw [List.foldl_cons]
    apply fold_jobs_groupAt_pres
    rw [addStep_jobs, groupAt_appendAt, if_pos ⟨rfl, hj⟩]
    simp

theorem fold_jobs_groupAt_ne (j : Nat) (steps : List (Nat × Int))
    (acc : SolutionTemplate × Nat) (k : Nat) (hk : k ≠ j) :
    groupAt ((steps.foldl (addStep j) acc).1).jobs k = groupAt acc.1.jobs k := by
  induction steps generalizing acc with
  | nil => rfl
  | cons sp rest ih =>
    rw [List.foldl_cons, ih, addStep_jobs, groupAt_appendAt,
      if_neg (fun hc => hk hc.1.symm)]

theorem fold_machines_groupAt_pres (j : Nat) (steps : List (Nat × Int))
    (acc : SolutionTemplate × Nat) (k : Nat)
    (h : groupAt acc.1.machines k ≠ []) :
    groupAt ((steps.foldl (addStep j) acc).1).machines k ≠ [] := by
  induction steps generalizing acc with
  | nil => exact h
  | cons sp rest ih =>
    rw [List.foldl_cons]
    apply ih
    rw [addStep_machines, groupAt_appendAt, groupAt_growGroups]
    by_cases hc : sp.1 = k ∧ sp.1 < (growGroups acc.1.machines (sp.1 + 1)).length
    · rw [if_pos hc]
      simp
    · rw [if_neg hc]
      exact h

theorem fold_machines_used (j : Nat) (steps : List (Nat × Int))
    (acc : SolutionTemplate × Nat) (m : Nat) (hm : m ∈ steps.map Prod.fst) :
    groupAt ((steps.foldl (addStep j) acc).1).machines m ≠ [] := by
  induction steps generalizing acc with
  | nil => cases hm
  | cons sp rest ih =>
    rw [List.map_cons] at hm
    rw [List.foldl_cons]
    rcases List.mem_cons.mp hm with rfl | hm2
    · apply fold_machines_groupAt_pres
      have hlt : sp.1 < (growGroups acc.1.machines (sp.1 + 1)).length := by
        rw [length_growGroups]
        omega
      rw [addStep_machines, groupAt_appendAt, if_pos ⟨rfl, hlt⟩]
      simp
    · exact ih _ hm2

theorem fold_machines_bound (j : Nat) (steps : List (Nat × Int))
    (acc : SolutionTemplate × Nat) (k : Nat)
    (h : k < ((steps.foldl (addStep j) acc).1).machines.length) :
    k < acc.1.machines.length ∨ ∃ m ∈ steps.map Prod.fst, k ≤ m := by
  induction steps generalizing acc with
  | nil => exact Or.inl h
  | cons sp rest ih =>
    rw [List.foldl_cons] at h
    rcases ih _ h with h2 | ⟨m, hm, hkm⟩
    · rw [addStep_machines_len] at h2
      by_cases hc : k < acc.1.machines.length
      · exact Or.inl hc
      · refine Or.inr ⟨sp.1, ?_, by omega⟩
        rw [List.map_cons]
        exact List.mem_cons_self _ _
    · refine Or.inr ⟨m, ?_, hkm⟩
      rw [List.map_cons]
      exact List.mem_cons_of_mem _ hm

theorem add_job_machines_pres {st : SolutionTemplate} {j : Nat}
    {steps : List (Nat × Int)} {k : Nat} (h : groupAt st.machines k ≠ []) :
    groupAt (add_job st j steps).machines k ≠ [] :=
  fold_machines_groupAt_pres j steps _ k h

theorem add_job_machines_used {st : SolutionTemplate} {j : Nat}
    {steps : List (Nat × Int)} {m : Nat} (hm : m ∈ steps.map Prod.fst) :
    groupAt (add_job st j steps).machines m ≠ [] :=
  fold_machines_used j steps _ m hm

theorem add_job_machines_bound {st : SolutionTemplate} {j : Nat}
    {steps : List (Nat × Int)} {k : Nat}
    (h : k < (add_job st j steps).machines.length) :
    k < st.machines.length ∨ ∃ m ∈ steps.map Prod.fst, k ≤ m :=
  fold_machines_bound j steps _ k h

theorem usedMachineIds_cons (cl : Nat × List (Nat × Int))
    (rest : List (Nat × List (Nat × Int))) :
    usedMachineIds (cl :: rest) = cl.2.map Prod.fst ++ usedMachineIds rest := rfl

theorem build_machines_pres (calls : List (Nat × List (Nat × Int))) :
    ∀ (st : SolutionTemplate) (k : Nat), groupAt st.machines k ≠ [] →
      groupAt (calls.foldl (fun s cl => add_job s cl.1 cl.2) st).machines k ≠ [] := by
  induction calls with
  | nil => exact fun st k h => h
  | cons cl rest ih =>
    intro st k h
    rw [List.foldl_cons]
    exact ih _ k (add_job_machines_pres h)

theorem build_machines_used (calls : List (Nat × List (Nat × Int))) :
    ∀ (st : SolutionTemplate) (m : Nat), m ∈ usedMachineIds calls →
      groupAt (calls.foldl (fun s cl => add_job s cl.1 cl.2) st).machines m ≠ [] := by
  induction calls with
  | nil => exact fun st m hm => absurd hm (List.not_mem_nil m)
  | cons cl rest ih =>
    intro st m hm
    rw [usedMachineIds_cons] at hm
    rw [List.foldl_cons]
    rcases List.mem_append.mp hm with h1 | h2
    · exact build_machines_pres rest _ m (add_job_machines_used h1)
    · exact ih _ m h2

theorem build_machines_bound (calls : List (Nat × List (Nat × Int))) :
    ∀ (st : SolutionTemplate) (k : Nat),
      k < ((calls.foldl (fun s cl => add_job s cl.1 cl.2) st)).machines.length →
      k < st.machines.length ∨ ∃ m ∈ usedMachineIds calls, k ≤ m := by
  induction calls with
  | nil => exact fun st k h => Or.inl h
  | cons cl rest ih =>
    intro st k h
    rw [List.foldl_cons] at h
    rcases ih _ k h with h2 | ⟨m, hm, hkm⟩
    · rcases add_job_machines_bound h2 with h3 | ⟨m, hm, hkm⟩
      · exact Or.inl h3
      · refine Or.inr ⟨m, ?_, hkm⟩
        rw [usedMachineIds_cons]
        exact List.mem_append.mpr (Or.inl hm)
    · refine Or.inr ⟨m, ?_, hkm⟩
      rw [usedMachineIds_cons]
      exact List.mem_append.mpr (Or.inr hm)

theorem le_foldr_max {l : List Nat} {m : Nat} (h : m ∈ l) : m ≤ l.foldr max 0 := by
  induction l with
  | nil => cases h
  | cons a l ih =>
    rw [List.foldr_cons]
    rcases List.mem_cons.mp h with rfl | h2
    · exact le_max_left _ _
    · exact le_trans (ih h2) (le_max_right _ _)

theorem forall_mem_iff_groupAt {gs : List (List Nat)} :
    (∀ g ∈ gs, g ≠ []) ↔ ∀ k, k < gs.length → groupAt gs k ≠ [] := by
  constructor
  · intro h k hk
    rw [groupAt_lt hk]
    exact h _ (List.getElem_mem hk)
  · intro h g hg
    obtain ⟨k, hk, hkg⟩ := List.mem_iff_getElem.mp hg
    rw [← hkg, ← groupAt_lt hk]
    exact h k hk

theorem resizeGroups_snoc (gs : List (List Nat)) :
    resizeGroups gs (gs.length + 1) = gs ++ [[]] := by
  unfold resizeGroups
  rw [List.take_of_length_le (by omega),
    (show gs.length + 1 - gs.length = 1 by omega)]
  rfl

theorem add_job_jobs_len {st : SolutionTemplate} {j : Nat}
    (steps : List (Nat × Int)) (hj : j = st.jobs.length) :
    (add_job st j steps).jobs.length = st.jobs.length + 1 := by
  unfold add_job
  rw [fold_jobs_len]
  show (resizeGroups st.jobs (j + 1)).length = _
  subst hj
  rw [resizeGroups_snoc, List.length_append]
  rfl

theorem add_job_jobs_nonempty {st : SolutionTemplate} {j : Nat}
    {steps : List (Nat × Int)} (hj : j = st.jobs.length) (hs : steps ≠ [])
    (hprev : ∀ g ∈ st.jobs, g ≠ []) :
    ∀ g ∈ (add_job st j steps).jobs, g ≠ [] := by
  rw [forall_mem_iff_groupAt]
  intro k hk
  rw [add_job_jobs_len steps hj] at hk
  unfold add_job
  by_cases hkj : k = j
  · subst hkj
    apply fold_jobs_groupAt_new _ _ _ _ hs
    show k < (resizeGroups st.jobs (k + 1)).length
    subst hj
    rw [resizeGroups_snoc, List.length_append]
    simp
  · rw [fold_jobs_groupAt_ne _ _ _ _ hkj]
    show groupAt (resizeGroups st.jobs (j + 1)) k ≠ []
    subst hj
    rw [resizeGroups_snoc]
    have hk2 : k < st.jobs.length := by omega
    rw [groupAt_append_left hk2]
    exact (forall_mem_iff_groupAt.mp hprev) k hk2

theorem build_jobs_nonempty (calls : List (Nat × List (Nat × Int))) :
    ∀ (st : SolutionTemplate),
      calls.map Prod.fst = List.range' st.jobs.length calls.length →
      (∀ cl ∈ calls, cl.2 ≠ []) →
      (∀ g ∈ st.jobs, g ≠ []) →
      ∀ g ∈ (calls.foldl (fun s cl => add_job s cl.1 cl.2) st).jobs, g ≠ [] := by
  induction calls with
  | nil => exact fun st _ _ hprev => hprev
  | cons cl rest ih =>
    intro st hids hsteps hprev
    rw [List.map_cons, List.length_cons, List.range'_succ, List.cons.injEq] at hids
    obtain ⟨hj, hrest⟩ := hids
    rw [List.foldl_cons]
    apply ih
    · rw [add_job_jobs_len _ hj]
      exact hrest
    · exact fun cl2 h2 => hsteps cl2 (List.mem_cons_of_mem _ h2)
    · exact add_job_jobs_nonempty hj (hsteps cl (List.mem_cons_self _ _)) hprev

theorem build_machines_nonempty (calls : List (Nat × List (Nat × Int)))
    (hcov : machinesCovered calls) :
    ∀ m ∈ (buildTemplate calls).machines, m ≠ [] := by
  rw [forall_mem_iff_groupAt]
  intro k hk
  unfold buildTemplate at hk ⊢
  rcases build_machines_bound calls emptyTemplate k hk with h0 | ⟨m, hm, hkm⟩
  · simp [emptyTemplate] at h0
  · have hmax : m ≤ (usedMachineIds calls).foldr max 0 := le_foldr_max hm
    have hkr : k ∈ List.range ((usedMachineIds calls).foldr max 0 + 1) :=
      List.mem_range.mpr (by omega)
    rcases hcov k hkr with hemp | hkm2
    · rw [hemp] at hm
      cases hm
    · exact build_machines_used calls emptyTemplate k hkm2

/-- Claim C10 (corrected), counterexample: the call sequence
add_job(0, [(0,1)]); add_job(2, [(0,1)]) satisfies the stated
preconditions (every added job has a step, and machine 0, the only used
ID, is assigned operations), yet jobs.resize(3) leaves job group 1 empty;
by the second half of the claim itself that empty group puts the loop
bound size() - 1 out of range, so the accesses are not all in range. -/
theorem add_job_access_counterexample :
    stepsNonempty [(0, [(0, 1)]), (2, [(0, 1)])] ∧
      machinesCovered [(0, [(0, 1)]), (2, [(0, 1)])] ∧
      [] ∈ (buildTemplate [(0, [(0, 1)]), (2, [(0, 1)])]).jobs ∧
      ¬ accessesInRange (buildTemplate [(0, [(0, 1)]), (2, [(0, 1)])]) :=
  ⟨by decide, by decide, by decide, by decide⟩

/-- Claim C10 (corrected), amended: the stated preconditions need one
addition, that the job IDs of the calls are the consecutive sequence
0, 1, ..., n-1 in call order, exactly what the input parser produces (the
original claim admits gaps in the job IDs, and a gap leaves an empty job
group, out of range by the claim itself).  Under the strengthened
precondition every job and machine group of the built template is
non-empty, so the index accesses and loop bounds of total_runtime and
resolve_conflicts are all in range and total_runtime returns a value;
conversely, in every state with an empty machine group the
machine[machine.size() - 1] read of total_runtime is out of range
(modelled as none). -/
theorem add_job_access_amended (calls : List (Nat × List (Nat × Int)))
    (hids : calls.map Prod.fst = List.range calls.length)
    (hsteps : stepsNonempty calls) (hcov : machinesCovered calls) :
    accessesInRange (buildTemplate calls) ∧
      (∃ T, total_runtime (buildTemplate calls) = some T) ∧
      (∀ st2 : SolutionTemplate, [] ∈ st2.machines → total_runtime st2 = none) := by
  have hjobs : ∀ g ∈ (buildTemplate calls).jobs, g ≠ [] := by
    apply build_jobs_nonempty calls emptyTemplate ?_ hsteps ?_
    · rw [show emptyTemplate.jobs.length = 0 from rfl, ← List.range_eq_range']
      exact hids
    · intro g hg
      cases hg
  have hmach := build_machines_nonempty calls hcov
  exact ⟨⟨hjobs, hmach⟩, total_runtime_isSome hmach,
    fun st2 h2 => total_runtime_none_of_empty h2⟩

theorem add_job_access_amended_witness :
    accessesInRange (buildTemplate [(0, [(0, 3), (1, 2)]), (1, [(1, 4), (0, 1)])]) ∧
      (∃ T, total_runtime (buildTemplate [(0, [(0, 3), (1, 2)]), (1, [(1, 4), (0, 1)])])
        = some T) ∧
      (∀ st2 : SolutionTemplate, [] ∈ st2.machines → total_runtime st2 = none) :=
  add_job_access_amended [(0, [(0, 3), (1, 2)]), (1, [(1, 4), (0, 1)])]
    (by decide) (by decide) (by decide)

end NEC2
